import Mathlib

/-!
# Verification of the resonance session authority

Shallow embedding of the session state model, the pure session reducer and the
live-statement scheduler of `src/lib/session.ts`, the ratified-order splice of
`src/lib/insertStatement.ts`, and the room-authority message handlers of
`src/party/index.ts`, together with proofs of the specification claims about
them.

JavaScript records (`responses : Record<string, boolean>`) are modelled as
association lists with the record's key-ordering behaviour: an upsert on an
existing key updates the value in place, an upsert on a fresh key appends, and
`Object.keys(...).length` is the list length.  Machine numbers that may be
negative (`statementIndex` of an inbound action, the insertion service's
`index`) are modelled as `Int`; list indices produced by the code itself are
`Nat`.  Fallible code (`throw new Error(...)`) is modelled with `Except`.
-/

namespace Resonance

/-- `Statement` record of `src/lib/session.ts` (`StatementSchema`, lines 3-8):
`{ text, createdBy, present: string[], responses: Record<string, boolean> }`.
Note the schema has no `negation` / `negationFirst` fields. -/
structure Statement where
  text : String
  createdBy : String
  present : List String
  responses : List (String × Bool)
deriving DecidableEq

/-- `Session` record of `src/lib/session.ts` (`SessionSchema`, lines 10-16). -/
structure Session where
  statements : List Statement
  liveStatementIndex : Option Nat
  ratifiedOrder : List Nat
deriving DecidableEq

instance : DecidableEq (Except String Session) := fun a b =>
  match a, b with
  | .ok x, .ok y => decidable_of_iff (x = y) (by simp)
  | .error x, .error y => decidable_of_iff (x = y) (by simp)
  | .ok _, .error _ => isFalse (by simp)
  | .error _, .ok _ => isFalse (by simp)

/-- JS record upsert `{...responses, [userId]: response}`: an existing key keeps
its position and gets the new value, a fresh key is appended. -/
def setResponse (rs : List (String × Bool)) (k : String) (v : Bool) :
    List (String × Bool) :=
  if rs.any (fun p => p.1 = k) then
    rs.map (fun p => if p.1 = k then (p.1, v) else p)
  else
    rs ++ [(k, v)]

/-- JS rest-destructuring `const {[u]: _removed, ...remaining} = responses`:
removes the key `k`. -/
def removeResponse (rs : List (String × Bool)) (k : String) :
    List (String × Bool) :=
  rs.filter (fun p => p.1 ≠ k)

/-- `userId in responses` on the JS record. -/
def hasResponseKey (rs : List (String × Bool)) (k : String) : Bool :=
  rs.any (fun p => p.1 = k)

/-- `responses[k]` on the JS record (`none` = `undefined`). -/
def lookupResponse (rs : List (String × Bool)) (k : String) : Option Bool :=
  (rs.find? (fun p => p.1 = k)).map (fun p => p.2)

/-- `initializeSession` (`src/lib/session.ts`, lines 49-55). -/
def initializeSession : Session :=
  { statements := [], liveStatementIndex := none, ratifiedOrder := [] }

/-- `isStatementResolved` (`src/lib/session.ts`, lines 57-61):
`Object.keys(responses).length === present.length`. -/
def isStatementResolved (statement : Statement) : Bool :=
  statement.responses.length = statement.present.length

/-- `getUnresolvedStatements` (`src/lib/session.ts`, lines 63-65). -/
def getUnresolvedStatements (session : Session) : List Statement :=
  session.statements.filter (fun statement => ¬ isStatementResolved statement)

/-- `Object.values(statement.responses).every(r => r === true)`, the unanimity
check used by the room authority (`src/party/index.ts`). -/
def everyResponseTrue (statement : Statement) : Bool :=
  statement.responses.all (fun p => p.2)

/-- First index of a structurally equal element, modelling
`session.statements.indexOf(stmt)` for `stmt` a member of the array. -/
def firstIdxOf : List Statement → Statement → Nat
  | [], _ => 0
  | b :: l, a => if a = b then 0 else firstIdxOf l a + 1

/-- Resolved-statement count of one creator, modelling the
`resolvedCountByCreator` map of `selectNextLiveStatementIndex`
(`src/lib/session.ts`, lines 106-113): the number of resolved statements whose
`createdBy` is `creator` (a missing map entry reads as `0`). -/
def resolvedCountByCreator (session : Session) (creator : String) : Nat :=
  (session.statements.filter (fun st => isStatementResolved st)).countP
    (fun st => st.createdBy = creator)

/-- Sort key of an unresolved statement in `selectNextLiveStatementIndex`:
`(resolvedCountOfCreator, indexOf in session.statements)`. -/
def schedKey (session : Session) (st : Statement) : Nat × Nat :=
  (resolvedCountByCreator session st.createdBy, firstIdxOf session.statements st)

/-- Strict lexicographic order on sort keys; the JS comparator
(lines 116-126) returns a negative number exactly on these pairs. -/
def lexLt (p q : Nat × Nat) : Prop :=
  p.1 < q.1 ∨ (p.1 = q.1 ∧ p.2 < q.2)

instance (p q : Nat × Nat) : Decidable (lexLt p q) := by
  unfold lexLt; infer_instance

/-- Non-strict counterpart of `lexLt`. -/
def lexLe (p q : Nat × Nat) : Prop :=
  p.1 < q.1 ∨ (p.1 = q.1 ∧ p.2 ≤ q.2)

/-- The JS comparator of `selectNextLiveStatementIndex` as a Boolean
strict-order test. -/
def schedLt (session : Session) (a b : Statement) : Bool :=
  decide (lexLt (schedKey session a) (schedKey session b))

/-- Stable insertion of `x` into a sorted list: `x` is placed before the first
element that is not strictly below it. -/
def insertSorted (lt : α → α → Bool) (x : α) : List α → List α
  | [] => [x]
  | y :: ys => if lt y x then y :: insertSorted lt x ys else x :: y :: ys

/-- Stable sort by a strict comparator, modelling `Array.prototype.sort` with
the consistent comparator of `selectNextLiveStatementIndex` (JS `sort` is
stable and a consistent comparator yields the order sorted by its key). -/
def insertionSortBy (lt : α → α → Bool) : List α → List α
  | [] => []
  | x :: xs => insertSorted lt x (insertionSortBy lt xs)

/-- `selectNextLiveStatementIndex` (`src/lib/session.ts`, lines 102-130):
among unresolved statements, sort by `(resolvedCountOfCreator, original
index)` and return the original index of the first; `null` when there is no
unresolved statement. -/
def selectNextLiveStatementIndex (session : Session) : Option Nat :=
  let unresolvedStatements := getUnresolvedStatements session
  if unresolvedStatements.isEmpty then none
  else
    match insertionSortBy (schedLt session) unresolvedStatements with
    | [] => none
    | next :: _ => some (firstIdxOf session.statements next)

/-- Map with the element's index, used for the `statements.map((st, index) =>
...)` update of `RESPOND_TO_STATEMENT`. -/
def mapWithIdxFrom (f : Nat → α → α) (n : Nat) : List α → List α
  | [] => []
  | x :: xs => f n x :: mapWithIdxFrom f (n + 1) xs

def mapWithIdx (l : List α) (f : Nat → α → α) : List α :=
  mapWithIdxFrom f 0 l

/-- The `'add' | 'remove'` presence operation of
`UpdateUnresolvedStatementsAction`. -/
inductive PresenceOp where
  | add
  | remove
deriving DecidableEq

/-- `ADD_STATEMENT` case of `sessionReducer` (`src/lib/session.ts`, lines
134-154).  The payload dispatched by the room authority
(`src/party/index.ts`, lines 191-200) also carries `negation` and
`negationFirst`; the reducer reads only `text`, `createdBy` and
`presentUsers`, so those two arguments are taken here and (as in the source)
never used. -/
def applyAddStatement (session : Session) (text negation : String)
    (negationFirst : Bool) (createdBy : String) (presentUsers : List String) :
    Session :=
  let updatedSessionWithStatement : Session :=
    { session with
      statements := session.statements ++
        [{ text := text, createdBy := createdBy, present := presentUsers,
           responses := [] }] }
  { updatedSessionWithStatement with
    liveStatementIndex :=
      match session.liveStatementIndex with
      | some i => some i
      | none => selectNextLiveStatementIndex updatedSessionWithStatement }

/-- `RESPOND_TO_STATEMENT` case of `sessionReducer` (`src/lib/session.ts`,
lines 156-190).  Throwing `new Error('Invalid statement index')` is modelled
as `Except.error`. -/
def applyRespond (session : Session) (statementIndex : Int) (userId : String)
    (response : Bool) : Except String Session :=
  if statementIndex < 0 ∨ (session.statements.length : Int) ≤ statementIndex then
    .error "Invalid statement index"
  else
    let i : Nat := statementIndex.toNat
    let updatedSessionWithResponse : Session :=
      { session with
        statements := mapWithIdx session.statements (fun index statement =>
          if index = i then
            { statement with
              responses := setResponse statement.responses userId response }
          else statement) }
    let isNowResolved : Bool :=
      match updatedSessionWithResponse.statements[i]? with
      | some st => isStatementResolved st
      | none => false
    let newLiveStatementIndex : Option Nat :=
      if isNowResolved = true ∧ session.liveStatementIndex = some i then
        selectNextLiveStatementIndex updatedSessionWithResponse
      else session.liveStatementIndex
    .ok { updatedSessionWithResponse with
          liveStatementIndex := newLiveStatementIndex }

/-- Per-statement body of the `UPDATE_UNRESOLVED_STATEMENTS` map
(`src/lib/session.ts`, lines 197-227). -/
def presenceTransform (targetUserId : String) (updateAction : PresenceOp)
    (statement : Statement) : Statement :=
  if isStatementResolved statement then statement
  else
    match updateAction with
    | .add =>
      if statement.present.contains targetUserId then statement
      else { statement with present := statement.present ++ [targetUserId] }
    | .remove =>
      if statement.createdBy = targetUserId then statement
      else
        { statement with
          present := statement.present.filter (fun id => id ≠ targetUserId),
          responses := removeResponse statement.responses targetUserId }

/-- `UPDATE_UNRESOLVED_STATEMENTS` case of `sessionReducer`
(`src/lib/session.ts`, lines 192-247). -/
def applyUpdateUnresolved (session : Session) (targetUserId : String)
    (updateAction : PresenceOp) : Session :=
  let updatedSessionWithUserChanges : Session :=
    { session with
      statements := session.statements.map
        (presenceTransform targetUserId updateAction) }
  let needsNewLiveStatement : Bool :=
    match session.liveStatementIndex with
    | some li =>
      match updatedSessionWithUserChanges.statements[li]? with
      | some st => isStatementResolved st
      | none => false
    | none => false
  let newLive : Option Nat :=
    if needsNewLiveStatement = true ∨ session.liveStatementIndex = none then
      selectNextLiveStatementIndex updatedSessionWithUserChanges
    else session.liveStatementIndex
  { updatedSessionWithUserChanges with liveStatementIndex := newLive }

/-- Actions of `sessionReducer`.  `addStatement` carries the payload as the
room authority dispatches it (including `negation` / `negationFirst`, which the
reducer ignores); `respondToStatement` carries the raw JS number index as an
`Int`. -/
inductive SessionAction where
  | addStatement (text negation : String) (negationFirst : Bool)
      (createdBy : String) (presentUsers : List String)
  | respondToStatement (statementIndex : Int) (userId : String)
      (response : Bool)
  | updateUnresolvedStatements (userId : String) (op : PresenceOp)

/-- `sessionReducer` (`src/lib/session.ts`, lines 132-252). -/
def sessionReducer (session : Session) (action : SessionAction) :
    Except String Session :=
  match action with
  | .addStatement text negation negationFirst createdBy presentUsers =>
    .ok (applyAddStatement session text negation negationFirst createdBy
      presentUsers)
  | .respondToStatement statementIndex userId response =>
    applyRespond session statementIndex userId response
  | .updateUnresolvedStatements userId op =>
    .ok (applyUpdateUnresolved session userId op)

/-! ## Insertion of ratified statements (`src/lib/insertStatement.ts`) -/

/-- `type: "before" | "after"` of `InsertStatementSchema`. -/
inductive InsertRelation where
  | before
  | after
deriving DecidableEq

/-- `InsertPosition` (`src/lib/insertStatement.ts`, lines 4-9); the service's
`index` is a raw JS number, modelled as `Int`. -/
structure InsertPosition where
  type : InsertRelation
  index : Int
deriving DecidableEq

/-- `array.splice(i, 0, a)` on a list. -/
def spliceAt (l : List α) (i : Nat) (a : α) : List α :=
  l.take i ++ a :: l.drop i

/-- `applyInsertPosition` (`src/lib/insertStatement.ts`, lines 50-77). -/
def applyInsertPosition (currentOrder : List Nat) (newStatementIndex : Nat)
    (insertPosition : Option InsertPosition) : List Nat :=
  if currentOrder.isEmpty ∨ insertPosition = none then
    currentOrder ++ [newStatementIndex]
  else
    match insertPosition with
    | none => currentOrder ++ [newStatementIndex]
    | some pos =>
      if pos.index < 0 ∨ (currentOrder.length : Int) ≤ pos.index then
        currentOrder ++ [newStatementIndex]
      else
        match pos.type with
        | .before => spliceAt currentOrder pos.index.toNat newStatementIndex
        | .after => spliceAt currentOrder (pos.index.toNat + 1) newStatementIndex

/-! ## Room authority (`src/party/index.ts`)

The external insertion-position service (`insertStatement`, an LLM call) is
modelled as an oracle argument: `.ok pos` is a successful call returning
`pos : Option InsertPosition`, `.error ()` is a failure/timeout (the `catch`
branch of `handleStatementRatified`).  The negation service result is likewise
an argument (`negation`, `negationFirst`).  Connection bookkeeping is
abstracted to the arguments each handler actually reads. -/

/-- JS array indexing `statements[i]` with a raw number `i` (negative or
out-of-range reads give `undefined`). -/
def jsGet (l : List Statement) (i : Int) : Option Statement :=
  if i < 0 then none else l[i.toNat]?

/-- `handleStatementRatified` (`src/party/index.ts`, lines 307-355): splice the
newly ratified statement's index into `ratifiedOrder`, appending on service
failure. -/
def handleStatementRatified (session : Session) (statementIndex : Nat)
    (insertOracle : Except Unit (Option InsertPosition)) : Session :=
  match session.statements[statementIndex]? with
  | none => session
  | some _ =>
    match insertOracle with
    | .ok insertPosition =>
      { session with
        ratifiedOrder :=
          applyInsertPosition session.ratifiedOrder statementIndex
            insertPosition }
    | .error _ =>
      { session with
        ratifiedOrder := session.ratifiedOrder ++ [statementIndex] }

/-- `handleAddStatement` (`src/party/index.ts`, lines 167-241): append the
statement (with the generated negation in the dispatched payload), auto-approve
the creator, and run the ratification sub-step if the statement is immediately
resolved and unanimous.  `presentUsers` is the snapshot of connected ids.  An
exception from a reducer call would be caught by `onMessage` leaving the prior
state in effect (the `.error` branch, unreachable here). -/
def handleAddStatement (sessionState : Session) (text userId : String)
    (presentUsers : List String) (negation : String) (negationFirst : Bool)
    (insertOracle : Except Unit (Option InsertPosition)) : Session :=
  let updatedSession : Session :=
    applyAddStatement sessionState text negation negationFirst userId
      presentUsers
  let statementIndex : Nat := updatedSession.statements.length - 1
  match applyRespond updatedSession (statementIndex : Int) userId true with
  | .error _ => sessionState
  | .ok finalSession =>
    match finalSession.statements[statementIndex]? with
    | none => finalSession
    | some statement =>
      if isStatementResolved statement = true ∧ everyResponseTrue statement = true
      then handleStatementRatified finalSession statementIndex insertOracle
      else finalSession

/-- `handleVoteResponse` (`src/party/index.ts`, lines 243-305): apply the vote;
if it newly resolves the statement with unanimous agreement, run the
ratification sub-step.  A reducer exception (invalid index) is caught by
`onMessage`, leaving the state unchanged. -/
def handleVoteResponse (sessionState : Session) (statementIndex : Int)
    (userId : String) (response : Bool)
    (insertOracle : Except Unit (Option InsertPosition)) : Session :=
  let wasResolved : Bool :=
    match jsGet sessionState.statements statementIndex with
    | some st => isStatementResolved st
    | none => false
  match applyRespond sessionState statementIndex userId response with
  | .error _ => sessionState
  | .ok updatedSession =>
    let isNowResolved : Bool :=
      match jsGet updatedSession.statements statementIndex with
      | some st => isStatementResolved st
      | none => false
    let allAgreed : Bool :=
      match jsGet updatedSession.statements statementIndex with
      | some st => everyResponseTrue st
      | none => false
    if wasResolved = false ∧ isNowResolved = true ∧ allAgreed = true then
      handleStatementRatified updatedSession statementIndex.toNat insertOracle
    else updatedSession

/-- Presence-add part of `onConnect` (`src/party/index.ts`, lines 44-113):
when the connection has an id and statements exist, add the user to all
unresolved statements (the broadcast-only-if-changed comparison does not alter
the resulting state value). -/
def connectPresenceAdd (sessionState : Session) (userId : String) : Session :=
  if userId = "" ∨ sessionState.statements.isEmpty then sessionState
  else applyUpdateUnresolved sessionState userId .add

/-- The indices of the statements that are unresolved, in increasing order:
the `unresolvedBefore` set of `removeUserFromStatements`
(`src/party/index.ts`, lines 384-390). -/
def unresolvedIndices (session : Session) : List Nat :=
  (List.range session.statements.length).filter (fun i =>
    match session.statements[i]? with
    | some st => ¬ isStatementResolved st
    | none => false)

/-- The `for (const stmtIndex of unresolvedBefore)` loop of
`removeUserFromStatements` (`src/party/index.ts`, lines 401-422): ratify (and
splice) every statement that is now resolved and unanimous and not already in
`ratifiedOrder`.  `insertOracle` gives the insertion-service outcome per
statement index. -/
def ratifyLoop (session : Session) (idxs : List Nat)
    (insertOracle : Nat → Except Unit (Option InsertPosition)) : Session :=
  match idxs with
  | [] => session
  | stmtIndex :: rest =>
    let session' : Session :=
      match session.statements[stmtIndex]? with
      | none => session
      | some statement =>
        if isStatementResolved statement = true ∧
            everyResponseTrue statement = true ∧
            session.ratifiedOrder.contains stmtIndex = false then
          handleStatementRatified session stmtIndex (insertOracle stmtIndex)
        else session
    ratifyLoop session' rest insertOracle

/-- `removeUserFromStatements` (`src/party/index.ts`, lines 376-441): the
grace-timer expiry body — remove the user from all unresolved statements, then
ratify every statement that became resolved and unanimous. -/
def removeUserFromStatements (sessionState : Session) (userId : String)
    (insertOracle : Nat → Except Unit (Option InsertPosition)) : Session :=
  let unresolvedBefore : List Nat := unresolvedIndices sessionState
  let updatedSession : Session :=
    applyUpdateUnresolved sessionState userId .remove
  ratifyLoop updatedSession unresolvedBefore insertOracle

/-- Payload fields an inbound envelope may carry, projected onto the fields
the handlers read (`data.payload` of `onMessage`). -/
structure RawPayload where
  text : String
  userId : String
  statementIndex : Int
  response : Bool
deriving DecidableEq

/-- Observable outcome of one `onMessage` call: the resulting authority state,
the states broadcast to every connection, the states sent back to the sender
only, and whether the connection was closed. -/
structure MessageOutcome where
  newState : Session
  broadcasts : List Session
  replies : List Session
  connectionClosed : Bool
deriving DecidableEq

/-- `onMessage` (`src/party/index.ts`, lines 129-165): parse the envelope
(`none` = `JSON.parse` threw; the `catch` only logs) and dispatch on
`data.type`; unknown types only log.  The handlers' external-service inputs are
passed through as oracle arguments. -/
def onMessage (sessionState : Session)
    (message : Option (String × RawPayload)) (presentUsers : List String)
    (negation : String) (negationFirst : Bool)
    (insertOracle : Except Unit (Option InsertPosition)) : MessageOutcome :=
  match message with
  | none => ⟨sessionState, [], [], false⟩
  | some (msgType, payload) =>
    if msgType = "get_session" then ⟨sessionState, [], [sessionState], false⟩
    else if msgType = "add_statement" then
      let s' := handleAddStatement sessionState payload.text payload.userId
        presentUsers negation negationFirst insertOracle
      ⟨s', [s'], [], false⟩
    else if msgType = "vote_response" then
      let s' := handleVoteResponse sessionState payload.statementIndex
        payload.userId payload.response insertOracle
      ⟨s', [s'], [], false⟩
    else ⟨sessionState, [], [], false⟩

/-! ## Basic lemmas about the list helpers -/

theorem mapWithIdxFrom_getElem? (f : Nat → α → α) (n : Nat) (l : List α)
    (j : Nat) : (mapWithIdxFrom f n l)[j]? = (l[j]?).map (f (n + j)) := by
  induction l generalizing n j with
  | nil => simp [mapWithIdxFrom]
  | cons x xs ih =>
    cases j with
    | zero => simp [mapWithIdxFrom]
    | succ j =>
      have h : n + 1 + j = n + (j + 1) := by omega
      simp only [mapWithIdxFrom, List.getElem?_cons_succ]
      rw [ih (n + 1) j, h]

theorem mapWithIdx_getElem? (l : List α) (f : Nat → α → α) (j : Nat) :
    (mapWithIdx l f)[j]? = (l[j]?).map (f j) := by
  simpa using mapWithIdxFrom_getElem? f 0 l j

theorem mapWithIdxFrom_length (f : Nat → α → α) (n : Nat) (l : List α) :
    (mapWithIdxFrom f n l).length = l.length := by
  induction l generalizing n with
  | nil => rfl
  | cons x xs ih => simp [mapWithIdxFrom, ih]

theorem mapWithIdx_length (l : List α) (f : Nat → α → α) :
    (mapWithIdx l f).length = l.length :=
  mapWithIdxFrom_length f 0 l

theorem firstIdxOf_getElem? {l : List Statement} {a : Statement} (h : a ∈ l) :
    l[firstIdxOf l a]? = some a := by
  induction l with
  | nil => cases h
  | cons b bs ih =>
    by_cases hab : a = b
    · simp [firstIdxOf, hab]
    · rcases List.mem_cons.mp h with h' | h'
      · exact absurd h' hab
      · simp [firstIdxOf, hab, ih h']

theorem firstIdxOf_le {l : List Statement} {a : Statement} {j : Nat}
    (h : l[j]? = some a) : firstIdxOf l a ≤ j := by
  induction l generalizing j with
  | nil => simp at h
  | cons b bs ih =>
    cases j with
    | zero =>
      simp at h
      simp [firstIdxOf, h]
    | succ j =>
      by_cases hab : a = b
      · simp [firstIdxOf, hab]
      · simp only [List.getElem?_cons_succ] at h
        have := ih h
        simp [firstIdxOf, hab]
        omega

/-! ## Lemmas about the stable insertion sort -/

theorem insertSorted_ne_nil (lt : α → α → Bool) (x : α) (l : List α) :
    insertSorted lt x l ≠ [] := by
  cases l with
  | nil => simp [insertSorted]
  | cons y ys =>
    simp only [insertSorted]
    split <;> simp

theorem mem_insertSorted {lt : α → α → Bool} {x a : α} {l : List α} :
    a ∈ insertSorted lt x l ↔ a = x ∨ a ∈ l := by
  induction l with
  | nil => simp [insertSorted]
  | cons y ys ih =>
    simp only [insertSorted]
    split
    · simp only [List.mem_cons, ih]
      tauto
    · simp only [List.mem_cons]

theorem mem_insertionSortBy {lt : α → α → Bool} {a : α} {l : List α} :
    a ∈ insertionSortBy lt l ↔ a ∈ l := by
  induction l with
  | nil => simp [insertionSortBy]
  | cons x xs ih =>
    simp [insertionSortBy, mem_insertSorted, ih]

theorem insertionSortBy_eq_nil {lt : α → α → Bool} {l : List α}
    (h : insertionSortBy lt l = []) : l = [] := by
  cases l with
  | nil => rfl
  | cons x xs => exact absurd h (insertSorted_ne_nil lt x _)

/-- The head of the stable sort is minimal: no element of the input list is
strictly below it.  The comparator must be irreflexive, asymmetric and satisfy
the strict-weak-order interpolation property (all hold for a comparator
induced by a total order on keys). -/
theorem insertionSortBy_head_min {lt : α → α → Bool}
    (hirr : ∀ a, lt a a = false)
    (hasym : ∀ a b, lt a b = true → lt b a = true → False)
    (hco : ∀ x b a, lt x a = true → lt x b = true ∨ lt b a = true) :
    ∀ (l : List α) (h : α) (t : List α), insertionSortBy lt l = h :: t →
      ∀ x ∈ l, lt x h = false := by
  intro l
  induction l with
  | nil => intro h t hEq x hx; cases hx
  | cons a as ih =>
    intro h t hEq x hx
    cases hSort : insertionSortBy lt as with
    | nil =>
      have has : as = [] := insertionSortBy_eq_nil hSort
      subst has
      simp only [insertionSortBy, insertSorted] at hEq
      injection hEq with h1 h2
      subst h1
      rcases List.mem_singleton.mp hx with rfl
      exact hirr _
    | cons b bs =>
      have hmin := ih b bs hSort
      rw [insertionSortBy, hSort] at hEq
      simp only [insertSorted] at hEq
      by_cases hba : lt b a = true
      · rw [if_pos hba] at hEq
        injection hEq with h1 h2
        subst h1
        rcases List.mem_cons.mp hx with rfl | hx'
        · by_cases hax : lt x b = true
          · exact (hasym b x hba hax).elim
          · exact eq_false_of_ne_true hax
        · exact hmin x hx'
      · rw [if_neg hba] at hEq
        injection hEq with h1 h2
        subst h1
        rcases List.mem_cons.mp hx with rfl | hx'
        · exact hirr _
        · by_cases hxa : lt x a = true
          · rcases hco x b a hxa with h1 | h2
            · rw [hmin x hx'] at h1; cases h1
            · exact absurd h2 hba
          · exact eq_false_of_ne_true hxa

/-! ## Specification of the live-statement scheduler -/

theorem lexLt_irrefl (p : Nat × Nat) : ¬ lexLt p p := by
  unfold lexLt; omega

theorem lexLt_asymm {p q : Nat × Nat} (h1 : lexLt p q) (h2 : lexLt q p) :
    False := by
  unfold lexLt at h1 h2; omega

theorem lexLt_interpolate {p r : Nat × Nat} (q : Nat × Nat)
    (h : lexLt p r) : lexLt p q ∨ lexLt q r := by
  unfold lexLt at h ⊢; omega

theorem lexLe_of_not_lexLt {p q : Nat × Nat} (h : ¬ lexLt q p) :
    lexLe p q := by
  unfold lexLt at h; unfold lexLe; omega

theorem lexLe_snd_mono {p : Nat × Nat} {a m n : Nat}
    (h : lexLe p (a, m)) (hmn : m ≤ n) : lexLe p (a, n) := by
  unfold lexLe at h ⊢
  simp only at h ⊢
  omega

theorem schedLt_irrefl (s : Session) : ∀ a, schedLt s a a = false := by
  intro a
  simp [schedLt, lexLt_irrefl]

theorem schedLt_asymm (s : Session) :
    ∀ a b, schedLt s a b = true → schedLt s b a = true → False := by
  intro a b h1 h2
  simp only [schedLt, decide_eq_true_eq] at h1 h2
  exact lexLt_asymm h1 h2

theorem schedLt_interpolate (s : Session) :
    ∀ x b a, schedLt s x a = true →
      schedLt s x b = true ∨ schedLt s b a = true := by
  intro x b a h
  simp only [schedLt, decide_eq_true_eq] at h ⊢
  exact lexLt_interpolate _ h

theorem mem_unresolved_iff {s : Session} {st : Statement} :
    st ∈ getUnresolvedStatements s ↔
      st ∈ s.statements ∧ isStatementResolved st = false := by
  unfold getUnresolvedStatements
  rw [List.mem_filter]
  simp

/-- `selectNextLiveStatementIndex` returns `null` exactly when the session has
no unresolved statement. -/
theorem selectNext_eq_none_iff (s : Session) :
    selectNextLiveStatementIndex s = none ↔ getUnresolvedStatements s = [] := by
  unfold selectNextLiveStatementIndex
  by_cases h : (getUnresolvedStatements s).isEmpty = true
  · simp [h, List.isEmpty_iff.mp h]
  · simp only [h, if_false, Bool.false_eq_true]
    cases hs : insertionSortBy (schedLt s) (getUnresolvedStatements s) with
    | nil =>
      exact absurd (insertionSortBy_eq_nil hs)
        (by simpa [List.isEmpty_iff] using h)
    | cons nx t =>
      simp only [if_neg h]
      constructor
      · intro hc; cases hc
      · intro hc
        exact absurd hc (by simpa [List.isEmpty_iff] using h)

/-- When `selectNextLiveStatementIndex` returns an index, that index holds an
unresolved statement whose scheduling key `(resolved count of creator, index)`
is minimal among all unresolved statements. -/
theorem selectNext_spec {s : Session} {i : Nat}
    (h : selectNextLiveStatementIndex s = some i) :
    ∃ st, s.statements[i]? = some st ∧ isStatementResolved st = false ∧
      ∀ j st', s.statements[j]? = some st' → isStatementResolved st' = false →
        lexLe (resolvedCountByCreator s st.createdBy, i)
              (resolvedCountByCreator s st'.createdBy, j) := by
  unfold selectNextLiveStatementIndex at h
  by_cases hEmpty : (getUnresolvedStatements s).isEmpty = true
  · simp [hEmpty] at h
  · simp only [hEmpty, if_false, Bool.false_eq_true, if_neg hEmpty] at h
    cases hs : insertionSortBy (schedLt s) (getUnresolvedStatements s) with
    | nil => rw [hs] at h; cases h
    | cons next t =>
      rw [hs] at h
      have hi : i = firstIdxOf s.statements next := by
        injection h with h'; exact h'.symm
      have hnextMem : next ∈ getUnresolvedStatements s :=
        mem_insertionSortBy.mp (hs ▸ List.mem_cons_self next t)
      obtain ⟨hnextStmts, hnextUnres⟩ := mem_unresolved_iff.mp hnextMem
      have hget : s.statements[i]? = some next := by
        rw [hi]; exact firstIdxOf_getElem? hnextStmts
      refine ⟨next, hget, hnextUnres, ?_⟩
      intro j st' hj hst'
      have hst'Mem : st' ∈ getUnresolvedStatements s :=
        mem_unresolved_iff.mpr ⟨List.getElem?_mem hj, hst'⟩
      have hltFalse : schedLt s st' next = false :=
        insertionSortBy_head_min (schedLt_irrefl s) (schedLt_asymm s)
          (schedLt_interpolate s) (getUnresolvedStatements s) next t hs st'
          hst'Mem
      have hnotLt : ¬ lexLt (schedKey s st') (schedKey s next) := by
        simpa [schedLt] using hltFalse
      have hle : lexLe (schedKey s next) (schedKey s st') :=
        lexLe_of_not_lexLt hnotLt
      have hkeyNext : schedKey s next =
          (resolvedCountByCreator s next.createdBy, i) := by
        simp [schedKey, hi]
      have hkeySt' : schedKey s st' =
          (resolvedCountByCreator s st'.createdBy, firstIdxOf s.statements st') :=
        rfl
      rw [hkeyNext, hkeySt'] at hle
      exact lexLe_snd_mono hle (firstIdxOf_le hj)

/-! ## The live-statement invariant (spec invariant 4) -/

/-- Invariant 4 of the spec: `liveStatementIndex`, if set, references an
unresolved statement, and it is `null` iff the session has no unresolved
statement. -/
def LiveInvariant (s : Session) : Prop :=
  (∀ i, s.liveStatementIndex = some i →
    ∃ st, s.statements[i]? = some st ∧ isStatementResolved st = false) ∧
  (s.liveStatementIndex = none ↔ getUnresolvedStatements s = [])

theorem getUnresolved_set_live (s : Session) (x : Option Nat) :
    getUnresolvedStatements { s with liveStatementIndex := x } =
      getUnresolvedStatements s := rfl

theorem getUnresolved_ne_nil_of_mem {s : Session} {st : Statement}
    (hmem : st ∈ s.statements) (hunres : isStatementResolved st = false) :
    getUnresolvedStatements s ≠ [] :=
  List.ne_nil_of_mem (mem_unresolved_iff.mpr ⟨hmem, hunres⟩)

theorem all_resolved_of_unresolved_nil {s : Session}
    (h : getUnresolvedStatements s = []) :
    ∀ st ∈ s.statements, isStatementResolved st = true := by
  intro st hmem
  by_contra hfalse
  exact getUnresolved_ne_nil_of_mem hmem
    (by simpa using hfalse) h

/-- Setting `liveStatementIndex` to the scheduler's choice restores the live
invariant, whatever the statements are. -/
theorem liveInvariant_set_selectNext (s : Session) :
    LiveInvariant
      { s with liveStatementIndex := selectNextLiveStatementIndex s } := by
  constructor
  · intro i hi
    simp only at hi
    obtain ⟨st, h1, h2, -⟩ := selectNext_spec hi
    exact ⟨st, h1, h2⟩
  · simp only [getUnresolved_set_live]
    exact selectNext_eq_none_iff s

theorem liveInvariant_init : LiveInvariant initializeSession := by
  constructor
  · intro i hi; cases hi
  · simp [initializeSession, getUnresolvedStatements]

/-- `ADD_STATEMENT` preserves the live invariant. -/
theorem liveInvariant_applyAddStatement (s : Session) (hs : LiveInvariant s)
    (text neg : String) (nf : Bool) (cb : String) (pu : List String) :
    LiveInvariant (applyAddStatement s text neg nf cb pu) := by
  unfold applyAddStatement
  simp only []
  cases hl : s.liveStatementIndex with
  | none => exact liveInvariant_set_selectNext _
  | some i =>
    obtain ⟨st, hget, hunres⟩ := hs.1 i hl
    have hlen : i < s.statements.length := by
      by_contra hge
      rw [List.getElem?_eq_none (by omega)] at hget
      cases hget
    constructor
    · intro j hj
      simp only at hj
      injection hj with hj
      subst hj
      refine ⟨st, ?_, hunres⟩
      rw [List.getElem?_append_left hlen]
      exact hget
    · constructor
      · intro hnone; cases hnone
      · intro hnil
        exact absurd hnil
          (getUnresolved_ne_nil_of_mem
            (List.mem_append_left _ (List.getElem?_mem hget)) hunres)

/-- Helpers on the respond update map. -/
theorem respondMap_getElem?_ne (s : Session) (u : String) (r : Bool) (i j : Nat)
    (hne : j ≠ i) :
    (mapWithIdx s.statements (fun index statement =>
      if index = i then
        { statement with
          responses := setResponse statement.responses u r }
      else statement))[j]? = s.statements[j]? := by
  rw [mapWithIdx_getElem?]
  cases s.statements[j]? with
  | none => rfl
  | some st => simp [hne]

theorem respondMap_getElem?_eq (s : Session) (u : String) (r : Bool) (i : Nat) :
    (mapWithIdx s.statements (fun index statement =>
      if index = i then
        { statement with
          responses := setResponse statement.responses u r }
      else statement))[i]? =
      (s.statements[i]?).map (fun st =>
        { st with responses := setResponse st.responses u r }) := by
  rw [mapWithIdx_getElem?]
  cases s.statements[i]? with
  | none => rfl
  | some st => simp

/-- `RESPOND_TO_STATEMENT` preserves the live invariant provided the target
statement is unresolved at the time of the action. -/
theorem liveInvariant_applyRespond {s s' : Session} (hs : LiveInvariant s)
    {idx : Int} {u : String} {r : Bool}
    (hok : applyRespond s idx u r = .ok s')
    (hguard : ∀ st, jsGet s.statements idx = some st →
      isStatementResolved st = false) :
    LiveInvariant s' := by
  unfold applyRespond at hok
  by_cases hrange : idx < 0 ∨ (s.statements.length : Int) ≤ idx
  · rw [if_pos hrange] at hok; cases hok
  · rw [if_neg hrange] at hok
    simp only [] at hok
    injection hok with hok
    subst hok
    have hidx0 : 0 ≤ idx := by omega
    have hidxlt : idx.toNat < s.statements.length := by omega
    obtain ⟨st0, hst0⟩ : ∃ st0, s.statements[idx.toNat]? = some st0 := by
      cases hc : s.statements[idx.toNat]? with
      | none =>
        rw [List.getElem?_eq_none_iff] at hc
        omega
      | some st0 => exact ⟨st0, rfl⟩
    have hguard0 : isStatementResolved st0 = false := by
      apply hguard
      unfold jsGet
      rw [if_neg (by omega)]
      exact hst0
    -- the updated statement list
    have hupd := respondMap_getElem?_eq s u r idx.toNat
    rw [hst0] at hupd
    simp only [Option.map_some'] at hupd
    split
    · exact liveInvariant_set_selectNext _
    · next hcond =>
      -- the live index is kept
      cases hl : s.liveStatementIndex with
      | none =>
        have hnil := hs.2.mp hl
        have := all_resolved_of_unresolved_nil hnil st0 (List.getElem?_mem hst0)
        rw [hguard0] at this
        cases this
      | some j =>
        obtain ⟨stj, hstj, hstjUnres⟩ := hs.1 j hl
        by_cases hji : j = idx.toNat
        · subst hji
          -- the target is the live statement; the kept branch means it did not
          -- become resolved
          rw [hl] at hcond
          have hnotnow : ¬ (match (mapWithIdx s.statements
              (fun index statement =>
                if index = idx.toNat then
                  { statement with
                    responses := setResponse statement.responses u r }
                else statement))[idx.toNat]? with
              | some st => isStatementResolved st
              | none => false) = true := by
            intro hgot
            exact hcond ⟨hgot, rfl⟩
          rw [hupd] at hnotnow
          simp only [] at hnotnow
          constructor
          · intro k hk
            simp only [hl] at hk
            injection hk with hk
            subst hk
            exact ⟨_, hupd, by simpa using hnotnow⟩
          · constructor
            · intro hnone; simp only [hl] at hnone; cases hnone
            · intro hnil
              exact absurd hnil
                (getUnresolved_ne_nil_of_mem (List.getElem?_mem hupd)
                  (by simpa using hnotnow))
        · -- live index different from target: its statement is untouched
          have hkeep := respondMap_getElem?_ne s u r idx.toNat j hji
          rw [hstj] at hkeep
          constructor
          · intro k hk
            simp only [hl] at hk
            injection hk with hk
            subst hk
            exact ⟨stj, hkeep, hstjUnres⟩
          · constructor
            · intro hnone; simp only [hl] at hnone; cases hnone
            · intro hnil
              exact absurd hnil
                (getUnresolved_ne_nil_of_mem (List.getElem?_mem hkeep)
                  hstjUnres)

/-- `UPDATE_UNRESOLVED_STATEMENTS` preserves the live invariant. -/
theorem liveInvariant_applyUpdateUnresolved (s : Session) (hs : LiveInvariant s)
    (u : String) (op : PresenceOp) :
    LiveInvariant (applyUpdateUnresolved s u op) := by
  unfold applyUpdateUnresolved
  simp only []
  cases hl : s.liveStatementIndex with
  | none =>
    rw [if_pos (Or.inr rfl)]
    exact liveInvariant_set_selectNext _
  | some li =>
    obtain ⟨st, hget, hunres⟩ := hs.1 li hl
    have hupd : (s.statements.map (presenceTransform u op))[li]? =
        some (presenceTransform u op st) := by
      rw [List.getElem?_map, hget]; rfl
    by_cases hres : isStatementResolved (presenceTransform u op st) = true
    · rw [if_pos]
      · exact liveInvariant_set_selectNext _
      · left
        show (match (s.statements.map (presenceTransform u op))[li]? with
          | some st => isStatementResolved st
          | none => false) = true
        rw [hupd]
        exact hres
    · rw [if_neg]
      · constructor
        · intro k hk
          injection hk with hk
          subst hk
          exact ⟨_, hupd, by simpa using hres⟩
        · constructor
          · intro hnone; cases hnone
          · intro hnil
            exact absurd hnil
              (getUnresolved_ne_nil_of_mem (List.getElem?_mem hupd)
                (by simpa using hres))
      · intro hcond
        rcases hcond with hneed | hnone
        · have hneed' :
              (match (s.statements.map (presenceTransform u op))[li]? with
                | some st => isStatementResolved st
                | none => false) = true := hneed
          rw [hupd] at hneed'
          exact hres hneed'
        · cases hnone

/-! ## Reachability by reducer-accepted actions -/

/-- Sessions reachable from the empty session by reducer-accepted actions
(claim C1's notion of reachability). -/
inductive ReducerReachable : Session → Prop where
  | init : ReducerReachable initializeSession
  | step {s s' : Session} (a : SessionAction) : ReducerReachable s →
      sessionReducer s a = .ok s' → ReducerReachable s'

/-- Reachability restricted to runs where every accepted `Respond` targets a
statement that is unresolved at the time of the action (the callers' usage
described in spec §4.4/§9). -/
inductive GuardedReducerReachable : Session → Prop where
  | init : GuardedReducerReachable initializeSession
  | step {s s' : Session} (a : SessionAction) : GuardedReducerReachable s →
      sessionReducer s a = .ok s' →
      (∀ idx u r, a = .respondToStatement idx u r →
        ∀ st, jsGet s.statements idx = some st →
          isStatementResolved st = false) →
      GuardedReducerReachable s'

theorem liveInvariant_reducer_step {s s' : Session} {a : SessionAction}
    (hs : LiveInvariant s) (hok : sessionReducer s a = .ok s')
    (hguard : ∀ idx u r, a = .respondToStatement idx u r →
      ∀ st, jsGet s.statements idx = some st →
        isStatementResolved st = false) :
    LiveInvariant s' := by
  cases a with
  | addStatement text neg nf cb pu =>
    unfold sessionReducer at hok
    injection hok with hok
    subst hok
    exact liveInvariant_applyAddStatement s hs text neg nf cb pu
  | respondToStatement idx u r =>
    unfold sessionReducer at hok
    exact liveInvariant_applyRespond hs hok (hguard idx u r rfl)
  | updateUnresolvedStatements u op =>
    unfold sessionReducer at hok
    injection hok with hok
    subst hok
    exact liveInvariant_applyUpdateUnresolved s hs u op

theorem liveInvariant_of_guardedReachable {s : Session}
    (h : GuardedReducerReachable s) : LiveInvariant s := by
  induction h with
  | init => exact liveInvariant_init
  | step a hreach hok hguard ih => exact liveInvariant_reducer_step ih hok hguard

/-! ## Shared facts about `applyRespond` and `setResponse` -/

theorem setResponse_length_of_not_has {rs : List (String × Bool)} {k : String}
    (h : hasResponseKey rs k = false) (v : Bool) :
    (setResponse rs k v).length = rs.length + 1 := by
  unfold hasResponseKey at h
  unfold setResponse
  rw [if_neg (by simp [h])]
  simp

theorem setResponse_length_of_has {rs : List (String × Bool)} {k : String}
    (h : hasResponseKey rs k = true) (v : Bool) :
    (setResponse rs k v).length = rs.length := by
  unfold hasResponseKey at h
  unfold setResponse
  rw [if_pos (by simp [h])]
  simp

theorem applyRespond_ok_fields {s s' : Session} {idx : Int} {u : String}
    {r : Bool} (hok : applyRespond s idx u r = .ok s') :
    s'.statements = mapWithIdx s.statements (fun index statement =>
      if index = idx.toNat then
        { statement with responses := setResponse statement.responses u r }
      else statement) ∧
    s'.ratifiedOrder = s.ratifiedOrder := by
  unfold applyRespond at hok
  split at hok
  · cases hok
  · injection hok with hok
    subst hok
    exact ⟨rfl, rfl⟩

theorem applyRespond_ok_range {s s' : Session} {idx : Int} {u : String}
    {r : Bool} (hok : applyRespond s idx u r = .ok s') :
    0 ≤ idx ∧ idx < (s.statements.length : Int) := by
  unfold applyRespond at hok
  split at hok
  · cases hok
  · next hc => omega

/-! ## C1: the live-statement invariant over reachable sessions -/

def c1Stmt0 : Statement :=
  { text := "t", createdBy := "u1", present := ["u1"], responses := [] }

def c1Stmt1 : Statement :=
  { text := "t", createdBy := "u1", present := ["u1"],
    responses := [("u1", true)] }

def c1Stmt2 : Statement :=
  { text := "t", createdBy := "u1", present := ["u1"],
    responses := [("u1", true), ("u2", false)] }

/-- The session reached by: add statement "t" by "u1" with present `["u1"]`;
"u1" votes yes (resolving it); then outsider "u2" votes on the already
resolved statement.  All three actions are reducer-accepted. -/
def c1CexSession : Session :=
  { statements := [c1Stmt2], liveStatementIndex := none, ratifiedOrder := [] }

/-- C1, counterexample: a session reachable from the empty session by
reducer-accepted actions whose `liveStatementIndex` is `null` while an
unresolved statement exists — the claimed invariant fails on reachable
states (an outsider vote on a resolved statement makes
`|responses| > |present|`, un-resolving it without rescheduling). -/
theorem c1_counterexample :
    ReducerReachable c1CexSession ∧
    c1CexSession.liveStatementIndex = none ∧
    getUnresolvedStatements c1CexSession ≠ [] := by
  refine ⟨?_, rfl, by decide⟩
  have h1 : sessionReducer initializeSession
      (.addStatement "t" "n" false "u1" ["u1"]) =
      .ok { statements := [c1Stmt0], liveStatementIndex := some 0,
            ratifiedOrder := [] } := by decide
  have h2 : sessionReducer
      { statements := [c1Stmt0], liveStatementIndex := some 0,
        ratifiedOrder := [] }
      (.respondToStatement 0 "u1" true) =
      .ok { statements := [c1Stmt1], liveStatementIndex := none,
            ratifiedOrder := [] } := by decide
  have h3 : sessionReducer
      { statements := [c1Stmt1], liveStatementIndex := none,
        ratifiedOrder := [] }
      (.respondToStatement 0 "u2" false) = .ok c1CexSession := by decide
  exact ReducerReachable.step _
    (ReducerReachable.step _ (ReducerReachable.step _ .init h1) h2) h3

/-- C1 (amended): for every session reachable from the empty session by
reducer-accepted actions in which every `Respond` targets a statement that is
unresolved at the time of the action, `liveStatementIndex`, if set, references
an unresolved statement (one with `|responses| ≠ |present|`), and it is `null`
iff the session has no unresolved statement. -/
theorem c1_liveIndex_invariant (s : Session) (h : GuardedReducerReachable s) :
    (∀ i, s.liveStatementIndex = some i →
      ∃ st, s.statements[i]? = some st ∧ isStatementResolved st = false) ∧
    (s.liveStatementIndex = none ↔ getUnresolvedStatements s = []) :=
  liveInvariant_of_guardedReachable h

def c1WitnessStmt : Statement :=
  { text := "t", createdBy := "u1", present := ["u1", "u2"], responses := [] }

/-- The session after one accepted `AddStatement` on the empty session. -/
def c1WitnessSession : Session :=
  { statements := [c1WitnessStmt],
    liveStatementIndex := some 0,
    ratifiedOrder := [] }

theorem c1_liveIndex_invariant_witness :
    GuardedReducerReachable c1WitnessSession ∧
    ((∀ i, c1WitnessSession.liveStatementIndex = some i →
      ∃ st, c1WitnessSession.statements[i]? = some st ∧
        isStatementResolved st = false) ∧
    (c1WitnessSession.liveStatementIndex = none ↔
      getUnresolvedStatements c1WitnessSession = [])) := by
  have hreach : GuardedReducerReachable c1WitnessSession :=
    GuardedReducerReachable.step
      (.addStatement "t" "n" false "u1" ["u1", "u2"])
      GuardedReducerReachable.init (by decide)
      (fun idx u r h => nomatch h)
  exact ⟨hreach, c1_liveIndex_invariant c1WitnessSession hreach⟩

/-! ## C3: specification of `selectNextLiveStatementIndex` -/

/-- Creator "b" has one resolved statement and one unresolved one (created
first); creator "a" has zero resolved statements and one unresolved one
(created later). -/
def fairnessExample : Session :=
  { statements := [
      { text := "s0", createdBy := "b", present := ["b"],
        responses := [("b", true)] },
      { text := "s1", createdBy := "b", present := ["b", "c"],
        responses := [] },
      { text := "s2", createdBy := "a", present := ["a", "c"],
        responses := [] }],
    liveStatementIndex := some 1,
    ratifiedOrder := [] }

/-- C3: `selectNextLiveStatementIndex` returns `null` iff the session has no
unresolved statement; otherwise it returns an index holding an unresolved
statement whose key (resolved count of its creator, creation index) is
lexicographically minimal among all unresolved statements — and on the
concrete fairness example (creator "a" with 0 resolved statements vs creator
"b" with 1) it picks "a"'s statement (index 2) over "b"'s earlier one. -/
theorem c3_selectLive_spec :
    (∀ s : Session,
      (selectNextLiveStatementIndex s = none ↔
        getUnresolvedStatements s = []) ∧
      (∀ i, selectNextLiveStatementIndex s = some i →
        ∃ st, s.statements[i]? = some st ∧ isStatementResolved st = false ∧
          ∀ j st', s.statements[j]? = some st' →
            isStatementResolved st' = false →
            lexLe (resolvedCountByCreator s st.createdBy, i)
                  (resolvedCountByCreator s st'.createdBy, j))) ∧
    selectNextLiveStatementIndex fairnessExample = some 2 :=
  ⟨fun s => ⟨selectNext_eq_none_iff s, fun _ h => selectNext_spec h⟩,
    by decide⟩

theorem c3_selectLive_spec_witness :
    ∃ st, fairnessExample.statements[2]? = some st ∧
      isStatementResolved st = false ∧
      ∀ j st', fairnessExample.statements[j]? = some st' →
        isStatementResolved st' = false →
        lexLe (resolvedCountByCreator fairnessExample st.createdBy, 2)
              (resolvedCountByCreator fairnessExample st'.createdBy, j) :=
  (c3_selectLive_spec.1 fairnessExample).2 2 (by decide)

/-! ## C4: the negation fields are dropped by the reducer -/

/-- C4 (code bug): the `ADD_STATEMENT` payload dispatched by the room
authority carries `negation` and `negationFirst`, but the reducer's output is
independent of them, and the created `Statement` record consists of exactly
`text`, `createdBy`, `present` and empty `responses` — it carries no negation
data (`StatementSchema` has no such fields). -/
theorem c4_negation_not_stored (s : Session) (text n1 n2 cb : String)
    (b1 b2 : Bool) (pu : List String) :
    applyAddStatement s text n1 b1 cb pu =
      applyAddStatement s text n2 b2 cb pu ∧
    (applyAddStatement s text n1 b1 cb pu).statements[s.statements.length]? =
      some { text := text, createdBy := cb, present := pu, responses := [] } := by
  refine ⟨rfl, ?_⟩
  unfold applyAddStatement
  exact List.getElem?_concat_length _ _

/-! ## C5: `Respond` range validation -/

/-- C5: applying `Respond` with a statement index outside
`[0, |statements|)` fails with the validation error (leaving no successor
state), and with any index inside that range it succeeds. -/
theorem c5_respond_range (s : Session) (idx : Int) (u : String) (r : Bool) :
    ((idx < 0 ∨ (s.statements.length : Int) ≤ idx) →
      sessionReducer s (.respondToStatement idx u r) =
        .error "Invalid statement index") ∧
    (0 ≤ idx → idx < (s.statements.length : Int) →
      ∃ s', sessionReducer s (.respondToStatement idx u r) = .ok s') := by
  constructor
  · intro h
    show applyRespond s idx u r = .error "Invalid statement index"
    unfold applyRespond
    rw [if_pos h]
  · intro h0 h1
    show ∃ s', applyRespond s idx u r = .ok s'
    unfold applyRespond
    rw [if_neg (by omega)]
    exact ⟨_, rfl⟩

theorem c5_respond_range_witness :
    sessionReducer initializeSession (.respondToStatement 0 "u1" true) =
      .error "Invalid statement index" ∧
    (∃ s', sessionReducer c1WitnessSession (.respondToStatement 0 "u1" true) =
      .ok s') :=
  ⟨(c5_respond_range initializeSession 0 "u1" true).1 (by decide),
   (c5_respond_range c1WitnessSession 0 "u1" true).2 (by decide) (by decide)⟩

/-! ## C7: idempotence of presence-add -/

theorem map_eq_self_of_forall {l : List α} {f : α → α}
    (h : ∀ x ∈ l, f x = x) : l.map f = l := by
  induction l with
  | nil => rfl
  | cons x xs ih =>
    rw [List.map_cons, h x (List.mem_cons_self x xs),
      ih (fun y hy => h y (List.mem_cons_of_mem x hy))]

def c7CexStmt : Statement :=
  { text := "t", createdBy := "u1", present := ["u1"],
    responses := [("u1", true), ("u2", false)] }

/-- Same (reachable) session as the C1 counterexample: `liveStatementIndex` is
`null` although an unresolved statement exists. -/
def c7CexSession : Session :=
  { statements := [c7CexStmt], liveStatementIndex := none, ratifiedOrder := [] }

/-- C7, counterexample: a reducer-reachable session in which participant "u1"
is already present in every unresolved statement, yet `UpdatePresence{Add}`
for "u1" changes the session (it reschedules `liveStatementIndex`), so the
claimed structural equality fails. -/
theorem c7_counterexample :
    ReducerReachable c7CexSession ∧
    (∀ st ∈ getUnresolvedStatements c7CexSession,
      st.present.contains "u1" = true) ∧
    applyUpdateUnresolved c7CexSession "u1" .add ≠ c7CexSession := by
  refine ⟨?_, by decide, by decide⟩
  have h1 : sessionReducer initializeSession
      (.addStatement "t" "n" false "u1" ["u1"]) =
      .ok { statements := [c1Stmt0], liveStatementIndex := some 0,
            ratifiedOrder := [] } := by decide
  have h2 : sessionReducer
      { statements := [c1Stmt0], liveStatementIndex := some 0,
        ratifiedOrder := [] }
      (.respondToStatement 0 "u1" true) =
      .ok { statements := [c1Stmt1], liveStatementIndex := none,
            ratifiedOrder := [] } := by decide
  have h3 : sessionReducer
      { statements := [c1Stmt1], liveStatementIndex := none,
        ratifiedOrder := [] }
      (.respondToStatement 0 "u2" false) = .ok c7CexSession := by decide
  exact ReducerReachable.step _
    (ReducerReachable.step _ (ReducerReachable.step _ .init h1) h2) h3

/-- C7 (amended): on a session satisfying the live-statement invariant
(invariant 4 of the spec — in particular on any session the room authority
actually holds in the restricted runs of C1), applying `UpdatePresence{Add}`
for a participant already present in every unresolved statement's present set
returns a structurally equal session. -/
theorem c7_presenceAdd_idempotent (s : Session) (u : String)
    (hlive : LiveInvariant s)
    (hpresent : ∀ st ∈ getUnresolvedStatements s,
      st.present.contains u = true) :
    applyUpdateUnresolved s u .add = s := by
  have htrans : ∀ st ∈ s.statements, presenceTransform u .add st = st := by
    intro st hmem
    unfold presenceTransform
    by_cases hres : isStatementResolved st = true
    · rw [if_pos hres]
    · rw [if_neg hres]
      have hu : st ∈ getUnresolvedStatements s :=
        mem_unresolved_iff.mpr ⟨hmem, by simpa using hres⟩
      show (if st.present.contains u = true then st
        else { st with present := st.present ++ [u] }) = st
      rw [if_pos (hpresent st hu)]
  have hmap : s.statements.map (presenceTransform u .add) = s.statements :=
    map_eq_self_of_forall htrans
  obtain ⟨stmts, live, order⟩ := s
  simp only at hmap
  unfold applyUpdateUnresolved
  simp only [hmap]
  cases hl : live with
  | none =>
    rw [if_pos (Or.inr rfl)]
    have hnil : getUnresolvedStatements ⟨stmts, live, order⟩ =
        [] := hlive.2.mp (by rw [hl])
    have : selectNextLiveStatementIndex ⟨stmts, none, order⟩ = none := by
      rw [selectNext_eq_none_iff]
      exact hnil
    rw [this]
  | some li =>
    obtain ⟨st, hget, hunres⟩ := hlive.1 li (by rw [hl])
    simp only at hget
    rw [if_neg]
    intro hcond
    rcases hcond with hneed | hnone
    · have hneed' : (match stmts[li]? with
        | some st => isStatementResolved st
        | none => false) = true := hneed
      rw [hget] at hneed'
      have hneed2 : isStatementResolved st = true := hneed'
      rw [hunres] at hneed2
      cases hneed2
    · cases hnone

theorem c7_presenceAdd_idempotent_witness :
    LiveInvariant c1WitnessSession ∧
    (∀ st ∈ getUnresolvedStatements c1WitnessSession,
      st.present.contains "u1" = true) ∧
    applyUpdateUnresolved c1WitnessSession "u1" .add = c1WitnessSession := by
  have hlive : LiveInvariant c1WitnessSession := by
    constructor
    · intro i hi
      injection hi with hi
      subst hi
      exact ⟨c1WitnessStmt, by decide, by decide⟩
    · constructor
      · intro h; cases h
      · intro h; exact absurd h (by decide)
  refine ⟨hlive, by decide, ?_⟩
  exact c7_presenceAdd_idempotent c1WitnessSession "u1" hlive (by decide)

/-! ## C10: unrestricted voting and over-full statements -/

def c10CexStmt : Statement :=
  { text := "t", createdBy := "u1", present := ["u1", "u2"],
    responses := [("u1", true), ("u3", false)] }

def c10CexSession : Session :=
  { statements := [c10CexStmt], liveStatementIndex := none,
    ratifiedOrder := [] }

def c10CexStmtAfter : Statement :=
  { text := "t", createdBy := "u1", present := ["u1", "u2"],
    responses := [("u1", true), ("u3", true)] }

/-- C10, counterexample: participant "u3" is outside the present set of the
resolved statement but already has a response entry, so voting merely updates
that entry: the response count stays equal to the present count and the
statement remains resolved, contrary to the claim's "comes to exceed the
present count ... counts as unresolved again". -/
theorem c10_counterexample :
    c10CexStmt.present.contains "u3" = false ∧
    isStatementResolved c10CexStmt = true ∧
    sessionReducer c10CexSession (.respondToStatement 0 "u3" true) =
      .ok { statements := [c10CexStmtAfter], liveStatementIndex := none,
            ratifiedOrder := [] } ∧
    isStatementResolved c10CexStmtAfter = true := by
  exact ⟨by decide, by decide, by decide, by decide⟩

/-- C10 (amended): for every session and every valid statementIndex, `Respond`
succeeds for any participantId — including one not in the statement's present
set and including votes on already-resolved statements; and when a participant
with no existing response entry votes on a resolved statement, the response
count comes to exceed the present count, so the statement (resolved being
`|responses| == |present|` exactly) counts as unresolved again afterwards. -/
theorem c10_respond_unrestricted (s : Session) (idx : Int) (u : String)
    (r : Bool) (h0 : 0 ≤ idx) (h1 : idx < (s.statements.length : Int)) :
    (∃ s', sessionReducer s (.respondToStatement idx u r) = .ok s') ∧
    (∀ st, s.statements[idx.toNat]? = some st →
      isStatementResolved st = true → hasResponseKey st.responses u = false →
      ∀ s', sessionReducer s (.respondToStatement idx u r) = .ok s' →
        ∃ st', s'.statements[idx.toNat]? = some st' ∧
          st'.responses.length = st'.present.length + 1 ∧
          isStatementResolved st' = false) := by
  constructor
  · show ∃ s', applyRespond s idx u r = .ok s'
    unfold applyRespond
    rw [if_neg (by omega)]
    exact ⟨_, rfl⟩
  · intro st hst hres hnothas s' hok
    have hok' : applyRespond s idx u r = .ok s' := hok
    obtain ⟨hstmts, -⟩ := applyRespond_ok_fields hok'
    have hst' : s'.statements[idx.toNat]? =
        some { st with responses := setResponse st.responses u r } := by
      rw [hstmts, respondMap_getElem?_eq, hst]
      rfl
    have hlen : (setResponse st.responses u r).length =
        st.responses.length + 1 := setResponse_length_of_not_has hnothas r
    have hresolved : st.responses.length = st.present.length := by
      simpa [isStatementResolved] using hres
    refine ⟨_, hst', ?_, ?_⟩
    · show (setResponse st.responses u r).length = st.present.length + 1
      rw [hlen, hresolved]
    · show isStatementResolved
        { st with responses := setResponse st.responses u r } = false
      unfold isStatementResolved
      show decide ((setResponse st.responses u r).length =
        st.present.length) = false
      rw [hlen, hresolved]
      exact decide_eq_false (by omega)

theorem c10_respond_unrestricted_witness :
    (0 : Int) ≤ 0 ∧ (0 : Int) < (c10CexSession.statements.length : Int) ∧
    (∃ s', sessionReducer c10CexSession (.respondToStatement 0 "u4" true) =
      .ok s') :=
  ⟨le_refl 0, by decide,
    (c10_respond_unrestricted c10CexSession 0 "u4" true (le_refl 0)
      (by decide)).1⟩

/-! ## C8: specification of `applyInsertPosition` -/

/-- C8: `applyInsertPosition` splices the new index at `targetPosition` for
`Before` and at `targetPosition + 1` for `After`; it appends at the end when
the service result is `null`, the current order is empty, or the target
position is out of `[0, |currentOrder|)`; and in every case the result is a
single splice, so the relative order of all pre-existing entries is
preserved. -/
theorem c8_applyInsertPosition_spec (currentOrder : List Nat) (newIdx : Nat)
    (pos : Option InsertPosition) :
    ((pos = none ∨ currentOrder = []) →
      applyInsertPosition currentOrder newIdx pos = currentOrder ++ [newIdx]) ∧
    (∀ t i, pos = some ⟨t, i⟩ →
      (i < 0 ∨ (currentOrder.length : Int) ≤ i) →
      applyInsertPosition currentOrder newIdx pos =
        currentOrder ++ [newIdx]) ∧
    (∀ i, pos = some ⟨InsertRelation.before, i⟩ → 0 ≤ i →
      i < (currentOrder.length : Int) →
      applyInsertPosition currentOrder newIdx pos =
        currentOrder.take i.toNat ++ newIdx :: currentOrder.drop i.toNat) ∧
    (∀ i, pos = some ⟨InsertRelation.after, i⟩ → 0 ≤ i →
      i < (currentOrder.length : Int) →
      applyInsertPosition currentOrder newIdx pos =
        currentOrder.take (i.toNat + 1) ++
          newIdx :: currentOrder.drop (i.toNat + 1)) ∧
    (∃ k, applyInsertPosition currentOrder newIdx pos =
      currentOrder.take k ++ newIdx :: currentOrder.drop k) := by
  have happend : currentOrder ++ [newIdx] =
      currentOrder.take currentOrder.length ++
        newIdx :: currentOrder.drop currentOrder.length := by
    simp
  refine ⟨?_, ?_, ?_, ?_, ?_⟩
  · intro h
    unfold applyInsertPosition
    rcases h with rfl | rfl
    · rw [if_pos (Or.inr rfl)]
    · rw [if_pos (Or.inl (by decide))]
  · intro t i hpos hout
    subst hpos
    unfold applyInsertPosition
    by_cases hemp : currentOrder.isEmpty = true
    · rw [if_pos (Or.inl hemp)]
    · rw [if_neg (by simp [hemp])]
      show (if i < 0 ∨ (currentOrder.length : Int) ≤ i then
          currentOrder ++ [newIdx]
        else match t with
          | .before => spliceAt currentOrder i.toNat newIdx
          | .after => spliceAt currentOrder (i.toNat + 1) newIdx) =
        currentOrder ++ [newIdx]
      rw [if_pos hout]
  · intro i hpos h0 h1
    subst hpos
    unfold applyInsertPosition
    rw [if_neg (by simp [List.isEmpty_iff]; rintro rfl; simp at h1; omega)]
    show (if i < 0 ∨ (currentOrder.length : Int) ≤ i then
        currentOrder ++ [newIdx]
      else match InsertRelation.before with
        | .before => spliceAt currentOrder i.toNat newIdx
        | .after => spliceAt currentOrder (i.toNat + 1) newIdx) = _
    rw [if_neg (by omega)]
    rfl
  · intro i hpos h0 h1
    subst hpos
    unfold applyInsertPosition
    rw [if_neg (by simp [List.isEmpty_iff]; rintro rfl; simp at h1; omega)]
    show (if i < 0 ∨ (currentOrder.length : Int) ≤ i then
        currentOrder ++ [newIdx]
      else match InsertRelation.after with
        | .before => spliceAt currentOrder i.toNat newIdx
        | .after => spliceAt currentOrder (i.toNat + 1) newIdx) = _
    rw [if_neg (by omega)]
    rfl
  · rcases pos with - | ⟨t, i⟩
    · refine ⟨currentOrder.length, ?_⟩
      unfold applyInsertPosition
      rw [if_pos (Or.inr rfl)]
      exact happend
    · by_cases hemp : currentOrder.isEmpty = true
      · refine ⟨currentOrder.length, ?_⟩
        unfold applyInsertPosition
        rw [if_pos (Or.inl hemp)]
        exact happend
      · by_cases hout : i < 0 ∨ (currentOrder.length : Int) ≤ i
        · refine ⟨currentOrder.length, ?_⟩
          unfold applyInsertPosition
          rw [if_neg (by simp [hemp])]
          show (if i < 0 ∨ (currentOrder.length : Int) ≤ i then
              currentOrder ++ [newIdx]
            else match t with
              | .before => spliceAt currentOrder i.toNat newIdx
              | .after => spliceAt currentOrder (i.toNat + 1) newIdx) = _
          rw [if_pos hout]
          exact happend
        · cases t with
          | before =>
            refine ⟨i.toNat, ?_⟩
            unfold applyInsertPosition
            rw [if_neg (by simp [hemp])]
            show (if i < 0 ∨ (currentOrder.length : Int) ≤ i then
                currentOrder ++ [newIdx]
              else match InsertRelation.before with
                | .before => spliceAt currentOrder i.toNat newIdx
                | .after => spliceAt currentOrder (i.toNat + 1) newIdx) = _
            rw [if_neg hout]
            rfl
          | after =>
            refine ⟨i.toNat + 1, ?_⟩
            unfold applyInsertPosition
            rw [if_neg (by simp [hemp])]
            show (if i < 0 ∨ (currentOrder.length : Int) ≤ i then
                currentOrder ++ [newIdx]
              else match InsertRelation.after with
                | .before => spliceAt currentOrder i.toNat newIdx
                | .after => spliceAt currentOrder (i.toNat + 1) newIdx) = _
            rw [if_neg hout]
            rfl

theorem c8_applyInsertPosition_spec_witness :
    applyInsertPosition [10, 20, 30] 5 (some ⟨InsertRelation.before, 1⟩) =
      [10, 20, 30].take 1 ++ 5 :: [10, 20, 30].drop 1 :=
  (c8_applyInsertPosition_spec [10, 20, 30] 5
    (some ⟨InsertRelation.before, 1⟩)).2.2.1 1 rfl (by decide) (by decide)

/-! ## C9: malformed inbound messages are ignored -/

/-- C9: an inbound message that is unparseable, or whose type is none of
`get_session` / `add_statement` / `vote_response`, leaves the session state
unchanged, broadcasts nothing, sends nothing back, and does not close the
connection. -/
theorem c9_malformed_ignored (s : Session) (msg : Option (String × RawPayload))
    (pu : List String) (neg : String) (nf : Bool)
    (oracle : Except Unit (Option InsertPosition))
    (h : msg = none ∨ ∃ t p, msg = some (t, p) ∧ t ≠ "get_session" ∧
      t ≠ "add_statement" ∧ t ≠ "vote_response") :
    onMessage s msg pu neg nf oracle =
      { newState := s, broadcasts := [], replies := [],
        connectionClosed := false } := by
  rcases h with rfl | ⟨t, p, rfl, h1, h2, h3⟩
  · rfl
  · show (if t = "get_session" then
        ({ newState := s, broadcasts := [], replies := [s],
           connectionClosed := false } : MessageOutcome)
      else if t = "add_statement" then
        let s' := handleAddStatement s p.text p.userId pu neg nf oracle
        { newState := s', broadcasts := [s'], replies := [],
          connectionClosed := false }
      else if t = "vote_response" then
        let s' := handleVoteResponse s p.statementIndex p.userId p.response
          oracle
        { newState := s', broadcasts := [s'], replies := [],
          connectionClosed := false }
      else { newState := s, broadcasts := [], replies := [],
             connectionClosed := false }) =
      { newState := s, broadcasts := [], replies := [],
        connectionClosed := false }
    rw [if_neg h1, if_neg h2, if_neg h3]

theorem c9_malformed_ignored_witness :
    onMessage initializeSession (some ("bogus", ⟨"", "", 0, false⟩)) [] "" false
      (.ok none) =
      { newState := initializeSession, broadcasts := [], replies := [],
        connectionClosed := false } :=
  c9_malformed_ignored initializeSession (some ("bogus", ⟨"", "", 0, false⟩))
    [] "" false (.ok none)
    (Or.inr ⟨"bogus", ⟨"", "", 0, false⟩, rfl, by decide, by decide, by decide⟩)

/-! ## C6: creator permanence under presence removal -/

theorem applyUpdateUnresolved_statements (s : Session) (u : String)
    (op : PresenceOp) :
    (applyUpdateUnresolved s u op).statements =
      s.statements.map (presenceTransform u op) := rfl

theorem presenceTransform_remove_eq (u : String) (st : Statement) :
    presenceTransform u .remove st =
      if isStatementResolved st then st
      else if st.createdBy = u then st
      else { st with
        present := st.present.filter (fun id => id ≠ u),
        responses := removeResponse st.responses u } := rfl

theorem hasResponseKey_removeResponse {rs : List (String × Bool)}
    {u k : String} (hne : k ≠ u) :
    hasResponseKey (removeResponse rs u) k = hasResponseKey rs k := by
  induction rs with
  | nil => rfl
  | cons p ps ih =>
    by_cases hpu : p.1 = u
    · have h1 : removeResponse (p :: ps) u = removeResponse ps u := by
        simp [removeResponse, List.filter_cons, hpu]
      have hpk : ¬ (p.1 = k) := fun hw => hne (hw ▸ hpu)
      rw [h1, ih]
      show hasResponseKey ps k = hasResponseKey (p :: ps) k
      simp [hasResponseKey, List.any_cons, hpk]
    · have h1 : removeResponse (p :: ps) u = p :: removeResponse ps u := by
        simp [removeResponse, List.filter_cons, hpu]
      rw [h1]
      simp only [hasResponseKey, List.any_cons] at ih ⊢
      rw [ih]

theorem lookupResponse_removeResponse {rs : List (String × Bool)}
    {u k : String} (hne : k ≠ u) :
    lookupResponse (removeResponse rs u) k = lookupResponse rs k := by
  induction rs with
  | nil => rfl
  | cons p ps ih =>
    by_cases hpu : p.1 = u
    · have h1 : removeResponse (p :: ps) u = removeResponse ps u := by
        simp [removeResponse, List.filter_cons, hpu]
      have hpk : ¬ (p.1 = k) := fun hw => hne (hw ▸ hpu)
      rw [h1, ih]
      show lookupResponse ps k = lookupResponse (p :: ps) k
      unfold lookupResponse
      rw [List.find?_cons_of_neg _ (by simpa using hpk)]
    · have h1 : removeResponse (p :: ps) u = p :: removeResponse ps u := by
        simp [removeResponse, List.filter_cons, hpu]
      rw [h1]
      by_cases hpk : p.1 = k
      · unfold lookupResponse
        rw [List.find?_cons_of_pos _ (by simpa using hpk),
            List.find?_cons_of_pos _ (by simpa using hpk)]
      · unfold lookupResponse at ih ⊢
        rw [List.find?_cons_of_neg _ (by simpa using hpk),
            List.find?_cons_of_neg _ (by simpa using hpk)]
        exact ih

/-- One `Remove` step never removes a statement's creator from `present` nor
touches the creator's response entry (the creator case is a per-statement
no-op; for other targets the creator's entries survive filtering). -/
theorem presenceTransform_remove_preserves (u : String) (st : Statement)
    (hp : st.createdBy ∈ st.present)
    (hr : hasResponseKey st.responses st.createdBy = true) :
    (presenceTransform u .remove st).createdBy = st.createdBy ∧
    st.createdBy ∈ (presenceTransform u .remove st).present ∧
    hasResponseKey (presenceTransform u .remove st).responses st.createdBy =
      true ∧
    lookupResponse (presenceTransform u .remove st).responses st.createdBy =
      lookupResponse st.responses st.createdBy := by
  rw [presenceTransform_remove_eq]
  by_cases hres : isStatementResolved st = true
  · rw [if_pos hres]
    exact ⟨rfl, hp, hr, rfl⟩
  · rw [if_neg hres]
    by_cases hcu : st.createdBy = u
    · rw [if_pos hcu]
      exact ⟨rfl, hp, hr, rfl⟩
    · rw [if_neg hcu]
      refine ⟨rfl, ?_, ?_, ?_⟩
      · show st.createdBy ∈ st.present.filter (fun id => id ≠ u)
        rw [List.mem_filter]
        exact ⟨hp, by simp [hcu]⟩
      · show hasResponseKey (removeResponse st.responses u) st.createdBy = true
        rw [hasResponseKey_removeResponse hcu]
        exact hr
      · exact lookupResponse_removeResponse hcu

/-- A sequence of `UpdatePresence{Remove}` reducer actions (all of which the
reducer accepts). -/
def applyRemovals (s : Session) (users : List String) : Session :=
  users.foldl (fun acc u => applyUpdateUnresolved acc u .remove) s

/-- C6: in a session where every statement's creator is in its present set
with its response entry intact, any sequence of presence-removal actions
(whatever the targeted userIds, in particular each statement's own creator)
leaves every statement's creator in its present set, keeps the creator's
response entry, and leaves the looked-up creator response unchanged. -/
theorem c6_creator_permanence (s : Session) (users : List String)
    (h : ∀ st ∈ s.statements, st.createdBy ∈ st.present ∧
      hasResponseKey st.responses st.createdBy = true) :
    (applyRemovals s users).statements.length = s.statements.length ∧
    ∀ (i : Nat) (st st' : Statement), s.statements[i]? = some st →
      (applyRemovals s users).statements[i]? = some st' →
      st'.createdBy = st.createdBy ∧ st'.createdBy ∈ st'.present ∧
      hasResponseKey st'.responses st'.createdBy = true ∧
      lookupResponse st'.responses st'.createdBy =
        lookupResponse st.responses st.createdBy := by
  induction users generalizing s with
  | nil =>
    refine ⟨rfl, ?_⟩
    intro i st st' h1 h2
    have h2' : s.statements[i]? = some st' := h2
    rw [h1] at h2'
    injection h2' with h2'
    subst h2'
    exact ⟨rfl, (h st (List.getElem?_mem h1)).1,
      (h st (List.getElem?_mem h1)).2, rfl⟩
  | cons u us ih =>
    have hchain : applyRemovals s (u :: us) =
        applyRemovals (applyUpdateUnresolved s u .remove) us := rfl
    have h1 : ∀ st ∈ (applyUpdateUnresolved s u .remove).statements,
        st.createdBy ∈ st.present ∧
        hasResponseKey st.responses st.createdBy = true := by
      intro st hmem
      rw [applyUpdateUnresolved_statements] at hmem
      obtain ⟨st0, hst0, hst0eq⟩ := List.mem_map.mp hmem
      obtain ⟨pcb, pmem, pkey, -⟩ :=
        presenceTransform_remove_preserves u st0 (h st0 hst0).1 (h st0 hst0).2
      subst hst0eq
      rw [pcb]
      exact ⟨pmem, pkey⟩
    have hrec := ih (applyUpdateUnresolved s u .remove) h1
    constructor
    · rw [hchain, hrec.1, applyUpdateUnresolved_statements, List.length_map]
    · intro i st st' hgood hgot
      have hs1 : (applyUpdateUnresolved s u .remove).statements[i]? =
          some (presenceTransform u .remove st) := by
        rw [applyUpdateUnresolved_statements, List.getElem?_map, hgood]
        rfl
      have hgot' : (applyRemovals (applyUpdateUnresolved s u .remove)
          us).statements[i]? = some st' := by
        rw [← hchain]
        exact hgot
      obtain ⟨hcb, hmem', hkey', hlook'⟩ :=
        hrec.2 i (presenceTransform u .remove st) st' hs1 hgot'
      obtain ⟨pcb, pmem, pkey, plook⟩ :=
        presenceTransform_remove_preserves u st
          (h st (List.getElem?_mem hgood)).1
          (h st (List.getElem?_mem hgood)).2
      refine ⟨hcb.trans pcb, hmem', hkey', ?_⟩
      rw [hlook', pcb]
      exact plook

def c6WitnessStmt : Statement :=
  { text := "t", createdBy := "u1", present := ["u1", "u2"],
    responses := [("u1", true)] }

def c6WitnessSession : Session :=
  { statements := [c6WitnessStmt], liveStatementIndex := some 0,
    ratifiedOrder := [] }

theorem c6_creator_permanence_witness :
    (∀ st ∈ c6WitnessSession.statements, st.createdBy ∈ st.present ∧
      hasResponseKey st.responses st.createdBy = true) ∧
    ((applyRemovals c6WitnessSession ["u1", "u2"]).statements.length =
      c6WitnessSession.statements.length ∧
      ∀ (i : Nat) (st st' : Statement),
        c6WitnessSession.statements[i]? = some st →
        (applyRemovals c6WitnessSession ["u1", "u2"]).statements[i]? =
          some st' →
        st'.createdBy = st.createdBy ∧ st'.createdBy ∈ st'.present ∧
        hasResponseKey st'.responses st'.createdBy = true ∧
        lookupResponse st'.responses st'.createdBy =
          lookupResponse st.responses st.createdBy) := by
  have h : ∀ st ∈ c6WitnessSession.statements, st.createdBy ∈ st.present ∧
      hasResponseKey st.responses st.createdBy = true := by decide
  exact ⟨h, c6_creator_permanence c6WitnessSession ["u1", "u2"] h⟩

/-! ## C2: exactness of `ratifiedOrder` at the room authority

`statementRatified` is the room authority's ratification test (resolved and
every response `true`); `ratifiedAt stmts i` applies it at an index. -/

def statementRatified (st : Statement) : Bool :=
  isStatementResolved st && everyResponseTrue st

def ratifiedAt (stmts : List Statement) (i : Nat) : Bool :=
  match stmts[i]? with
  | some st => statementRatified st
  | none => false

/-- The C2 invariant: `ratifiedOrder` contains exactly the ratified statement
indices, each at most once — together with the bookkeeping facts making it
inductive (response counts never exceed present counts; present lists are
duplicate-free). -/
def AuthInv (s : Session) : Prop :=
  (∀ i : Nat, i ∈ s.ratifiedOrder ↔ ratifiedAt s.statements i = true) ∧
  s.ratifiedOrder.Nodup ∧
  (∀ st ∈ s.statements, st.responses.length ≤ st.present.length) ∧
  (∀ st ∈ s.statements, st.present.Nodup)

theorem spliceAt_perm (l : List α) (k : Nat) (a : α) :
    List.Perm (spliceAt l k a) (a :: l) := by
  unfold spliceAt
  calc List.Perm (l.take k ++ a :: l.drop k) (a :: (l.take k ++ l.drop k)) :=
        List.perm_middle
    _ = (a :: l) := by rw [List.take_append_drop]

/-- Every branch of `applyInsertPosition` is a single splice. -/
theorem applyInsertPosition_splice (currentOrder : List Nat) (n : Nat)
    (pos : Option InsertPosition) :
    ∃ k, applyInsertPosition currentOrder n pos = spliceAt currentOrder k n := by
  have happ : currentOrder ++ [n] =
      spliceAt currentOrder currentOrder.length n := by
    unfold spliceAt
    simp
  rcases pos with - | ⟨t, i⟩
  · refine ⟨currentOrder.length, ?_⟩
    unfold applyInsertPosition
    rw [if_pos (Or.inr rfl)]
    exact happ
  · by_cases hemp : currentOrder.isEmpty = true
    · refine ⟨currentOrder.length, ?_⟩
      unfold applyInsertPosition
      rw [if_pos (Or.inl hemp)]
      exact happ
    · by_cases hout : i < 0 ∨ (currentOrder.length : Int) ≤ i
      · refine ⟨currentOrder.length, ?_⟩
        unfold applyInsertPosition
        rw [if_neg (by simp [hemp])]
        show (if i < 0 ∨ (currentOrder.length : Int) ≤ i then
            currentOrder ++ [n]
          else match t with
            | .before => spliceAt currentOrder i.toNat n
            | .after => spliceAt currentOrder (i.toNat + 1) n) = _
        rw [if_pos hout]
        exact happ
      · cases t with
        | before =>
          refine ⟨i.toNat, ?_⟩
          unfold applyInsertPosition
          rw [if_neg (by simp [hemp])]
          show (if i < 0 ∨ (currentOrder.length : Int) ≤ i then
              currentOrder ++ [n]
            else match InsertRelation.before with
              | .before => spliceAt currentOrder i.toNat n
              | .after => spliceAt currentOrder (i.toNat + 1) n) = _
          rw [if_neg hout]
        | after =>
          refine ⟨i.toNat + 1, ?_⟩
          unfold applyInsertPosition
          rw [if_neg (by simp [hemp])]
          show (if i < 0 ∨ (currentOrder.length : Int) ≤ i then
              currentOrder ++ [n]
            else match InsertRelation.after with
              | .before => spliceAt currentOrder i.toNat n
              | .after => spliceAt currentOrder (i.toNat + 1) n) = _
          rw [if_neg hout]

theorem mem_applyInsertPosition {currentOrder : List Nat} {n x : Nat}
    {pos : Option InsertPosition} :
    x ∈ applyInsertPosition currentOrder n pos ↔ x = n ∨ x ∈ currentOrder := by
  obtain ⟨k, hk⟩ := applyInsertPosition_splice currentOrder n pos
  rw [hk, (spliceAt_perm currentOrder k n).mem_iff, List.mem_cons]

theorem nodup_applyInsertPosition {currentOrder : List Nat} {n : Nat}
    {pos : Option InsertPosition} (hnd : currentOrder.Nodup)
    (hnotin : n ∉ currentOrder) :
    (applyInsertPosition currentOrder n pos).Nodup := by
  obtain ⟨k, hk⟩ := applyInsertPosition_splice currentOrder n pos
  rw [hk, (spliceAt_perm currentOrder k n).nodup_iff]
  exact List.nodup_cons.mpr ⟨hnotin, hnd⟩

theorem handleStatementRatified_statements (s : Session) (i : Nat)
    (o : Except Unit (Option InsertPosition)) :
    (handleStatementRatified s i o).statements = s.statements := by
  unfold handleStatementRatified
  cases s.statements[i]? with
  | none => rfl
  | some st => cases o <;> rfl

theorem handleStatementRatified_order_mem {s : Session} {i : Nat}
    {o : Except Unit (Option InsertPosition)} {st : Statement}
    (hget : s.statements[i]? = some st) :
    ∀ x : Nat, x ∈ (handleStatementRatified s i o).ratifiedOrder ↔
      x = i ∨ x ∈ s.ratifiedOrder := by
  intro x
  unfold handleStatementRatified
  rw [hget]
  cases o with
  | ok pos => exact mem_applyInsertPosition
  | error e =>
    show x ∈ s.ratifiedOrder ++ [i] ↔ _
    rw [List.mem_append, List.mem_singleton]
    tauto

theorem handleStatementRatified_order_nodup {s : Session} {i : Nat}
    {o : Except Unit (Option InsertPosition)}
    (hnd : s.ratifiedOrder.Nodup) (hnotin : i ∉ s.ratifiedOrder) :
    (handleStatementRatified s i o).ratifiedOrder.Nodup := by
  unfold handleStatementRatified
  cases s.statements[i]? with
  | none => exact hnd
  | some st =>
    cases o with
    | ok pos => exact nodup_applyInsertPosition hnd hnotin
    | error e =>
      show (s.ratifiedOrder ++ [i]).Nodup
      rw [(List.perm_append_singleton i s.ratifiedOrder).nodup_iff]
      exact List.nodup_cons.mpr ⟨hnotin, hnd⟩

/-! ### Effect of the presence transforms on statement status -/

theorem presenceTransform_resolved {st : Statement} {u : String}
    {op : PresenceOp} (h : isStatementResolved st = true) :
    presenceTransform u op st = st := by
  unfold presenceTransform
  rw [if_pos h]

theorem presenceTransform_add_eq (u : String) (st : Statement) :
    presenceTransform u .add st =
      if isStatementResolved st then st
      else if st.present.contains u then st
      else { st with present := st.present ++ [u] } := rfl

theorem length_filter_ne_of_nodup_mem {u : String} :
    ∀ {l : List String}, l.Nodup → u ∈ l →
      (l.filter (fun id => id ≠ u)).length = l.length - 1 := by
  intro l
  induction l with
  | nil => intro _ hm; cases hm
  | cons a as ih =>
    intro hnd hm
    rw [List.filter_cons]
    by_cases hau : a = u
    · subst hau
      rw [if_neg (by simp)]
      have hnotin : a ∉ as := (List.nodup_cons.mp hnd).1
      rw [List.filter_eq_self.mpr (fun x hx => by
        simp only [decide_eq_true_eq]
        exact fun hxa => hnotin (hxa ▸ hx))]
      simp
    · rw [if_pos (by simp [hau])]
      rcases List.mem_cons.mp hm with rfl | hm'
      · exact absurd rfl hau
      · have hlen := ih (List.nodup_cons.mp hnd).2 hm'
        have hpos : 0 < as.length := List.length_pos_of_mem hm'
        simp only [List.length_cons, hlen]
        omega

theorem filter_ne_of_not_mem {l : List String} {u : String} (h : u ∉ l) :
    l.filter (fun id => id ≠ u) = l :=
  List.filter_eq_self.mpr (fun x hx => by
    simp only [decide_eq_true_eq]
    exact fun hxu => h (hxu ▸ hx))

theorem removeResponse_of_not_has {rs : List (String × Bool)} {u : String}
    (h : hasResponseKey rs u = false) : removeResponse rs u = rs := by
  unfold hasResponseKey at h
  rw [List.any_eq_false] at h
  refine List.filter_eq_self.mpr (fun p hp => ?_)
  simp only [decide_eq_true_eq]
  intro hpu
  have hne : ¬ (p.1 = u) := by simpa using h p hp
  exact hne hpu

theorem removeResponse_length_lt_of_has {rs : List (String × Bool)}
    {u : String} (h : hasResponseKey rs u = true) :
    (removeResponse rs u).length < rs.length := by
  unfold hasResponseKey at h
  rw [List.any_eq_true] at h
  obtain ⟨p, hp, hpu⟩ := h
  refine List.length_filter_lt_length_iff_exists.mpr ⟨p, hp, ?_⟩
  simp only [decide_eq_true_eq] at hpu ⊢
  simp [hpu]

/-- Presence-add on an unresolved statement with `|responses| ≤ |present|`
does not change its resolution status or its responses, and keeps the
bookkeeping facts. -/
theorem presenceTransform_add_status (u : String) (st : Statement)
    (hcount : st.responses.length ≤ st.present.length)
    (hnd : st.present.Nodup) :
    isStatementResolved (presenceTransform u .add st) =
      isStatementResolved st ∧
    (presenceTransform u .add st).responses = st.responses ∧
    (presenceTransform u .add st).responses.length ≤
      (presenceTransform u .add st).present.length ∧
    (presenceTransform u .add st).present.Nodup := by
  rw [presenceTransform_add_eq]
  by_cases hres : isStatementResolved st = true
  · rw [if_pos hres]
    exact ⟨rfl, rfl, hcount, hnd⟩
  · rw [if_neg hres]
    by_cases hcon : st.present.contains u = true
    · rw [if_pos hcon]
      exact ⟨rfl, rfl, hcount, hnd⟩
    · rw [if_neg hcon]
      have hneq : st.responses.length ≠ st.present.length := by
        intro heq
        exact hres (by simp [isStatementResolved, heq])
      have hlt : st.responses.length < st.present.length := by omega
      refine ⟨?_, rfl, ?_, ?_⟩
      · show isStatementResolved { st with present := st.present ++ [u] } =
          isStatementResolved st
        have h1 : isStatementResolved
            { st with present := st.present ++ [u] } = false := by
          simp only [isStatementResolved, List.length_append,
            List.length_cons, List.length_nil]
          exact decide_eq_false (by omega)
        rw [h1, eq_false_of_ne_true hres]
      · show st.responses.length ≤ (st.present ++ [u]).length
        simp only [List.length_append, List.length_cons, List.length_nil]
        omega
      · show (st.present ++ [u]).Nodup
        rw [(List.perm_append_singleton u st.present).nodup_iff]
        refine List.nodup_cons.mpr ⟨?_, hnd⟩
        intro hmem
        exact absurd (List.elem_iff.mpr hmem) (by simpa using hcon)

/-- Presence-remove keeps `|responses| ≤ |present|` and present-nodup. -/
theorem presenceTransform_remove_status (u : String) (st : Statement)
    (hcount : st.responses.length ≤ st.present.length)
    (hnd : st.present.Nodup) :
    (presenceTransform u .remove st).responses.length ≤
      (presenceTransform u .remove st).present.length ∧
    (presenceTransform u .remove st).present.Nodup := by
  rw [presenceTransform_remove_eq]
  by_cases hres : isStatementResolved st = true
  · rw [if_pos hres]
    exact ⟨hcount, hnd⟩
  · rw [if_neg hres]
    by_cases hcu : st.createdBy = u
    · rw [if_pos hcu]
      exact ⟨hcount, hnd⟩
    · rw [if_neg hcu]
      have hneq : st.responses.length ≠ st.present.length := by
        intro heq
        exact hres (by simp [isStatementResolved, heq])
      have hlt : st.responses.length < st.present.length := by omega
      refine ⟨?_, List.Nodup.filter _ hnd⟩
      show (removeResponse st.responses u).length ≤
        (st.present.filter (fun id => id ≠ u)).length
      by_cases hmem : u ∈ st.present
      · rw [length_filter_ne_of_nodup_mem hnd hmem]
        by_cases hhas : hasResponseKey st.responses u = true
        · have := removeResponse_length_lt_of_has hhas
          omega
        · rw [removeResponse_of_not_has (by simpa using hhas)]
          omega
      · rw [filter_ne_of_not_mem hmem]
        have := List.length_filter_le
          (fun p => decide (p.1 ≠ u)) st.responses
        calc (removeResponse st.responses u).length ≤
            st.responses.length := this
          _ ≤ st.present.length := hcount

/-! ### Authority step lemmas for the `ratifiedOrder` invariant -/

theorem mem_iff_exists_getElem? {l : List α} {a : α} :
    a ∈ l ↔ ∃ i : Nat, l[i]? = some a := by
  constructor
  · intro h
    obtain ⟨i, hi, hv⟩ := List.mem_iff_getElem.mp h
    exact ⟨i, by rw [List.getElem?_eq_getElem hi, hv]⟩
  · intro ⟨i, hi⟩
    exact List.getElem?_mem hi

theorem jsGet_nonneg {l : List Statement} {i : Int} (h : 0 ≤ i) :
    jsGet l i = l[i.toNat]? := by
  unfold jsGet
  rw [if_neg (by omega)]

theorem everyResponseTrue_congr {a b : Statement}
    (h : a.responses = b.responses) :
    everyResponseTrue a = everyResponseTrue b := by
  unfold everyResponseTrue
  rw [h]

theorem applyUpdateUnresolved_ratifiedOrder (s : Session) (u : String)
    (op : PresenceOp) :
    (applyUpdateUnresolved s u op).ratifiedOrder = s.ratifiedOrder := rfl

/-- Presence-add preserves the whole authority invariant: it changes no
statement's resolution status, responses, or ratification status. -/
theorem authInv_updateAdd (s : Session) (hinv : AuthInv s) (u : String) :
    AuthInv (applyUpdateUnresolved s u .add) := by
  obtain ⟨hexact, hnd, hcount, hpnd⟩ := hinv
  have hstmts : (applyUpdateUnresolved s u .add).statements =
      s.statements.map (presenceTransform u .add) := rfl
  have hrat : ∀ i, ratifiedAt (s.statements.map (presenceTransform u .add)) i =
      ratifiedAt s.statements i := by
    intro i
    unfold ratifiedAt
    rw [List.getElem?_map]
    cases hg : s.statements[i]? with
    | none => rfl
    | some st =>
      obtain ⟨h1, h2, -, -⟩ := presenceTransform_add_status u st
        (hcount st (List.getElem?_mem hg)) (hpnd st (List.getElem?_mem hg))
      show statementRatified (presenceTransform u .add st) =
        statementRatified st
      unfold statementRatified
      rw [h1, everyResponseTrue_congr h2]
  refine ⟨?_, hnd, ?_, ?_⟩
  · intro i
    rw [applyUpdateUnresolved_ratifiedOrder, hstmts, hrat i]
    exact hexact i
  · rw [hstmts]
    intro st hmem
    obtain ⟨st0, h0, rfl⟩ := List.mem_map.mp hmem
    exact (presenceTransform_add_status u st0 (hcount st0 h0)
      (hpnd st0 h0)).2.2.1
  · rw [hstmts]
    intro st hmem
    obtain ⟨st0, h0, rfl⟩ := List.mem_map.mp hmem
    exact (presenceTransform_add_status u st0 (hcount st0 h0)
      (hpnd st0 h0)).2.2.2

theorem authInv_connect (s : Session) (hinv : AuthInv s) (u : String) :
    AuthInv (connectPresenceAdd s u) := by
  unfold connectPresenceAdd
  split
  · exact hinv
  · exact authInv_updateAdd s hinv u

/-- After an in-range accepted vote on an unresolved target: the order is
unchanged, ratification statuses away from the target are unchanged, the
target was not ratified before, and the bookkeeping facts persist. -/
theorem authInv_respond_facts {s updated : Session} {idx : Int} {u : String}
    {r : Bool} (hinv : AuthInv s) (hok : applyRespond s idx u r = .ok updated)
    (hguard : ∀ st, jsGet s.statements idx = some st →
      isStatementResolved st = false) :
    updated.ratifiedOrder = s.ratifiedOrder ∧
    (∀ j : Nat, j ≠ idx.toNat →
      ratifiedAt updated.statements j = ratifiedAt s.statements j) ∧
    ratifiedAt s.statements idx.toNat = false ∧
    (∀ st ∈ updated.statements, st.responses.length ≤ st.present.length) ∧
    (∀ st ∈ updated.statements, st.present.Nodup) := by
  obtain ⟨hexact, hnd, hcount, hpnd⟩ := hinv
  obtain ⟨h0, h1⟩ := applyRespond_ok_range hok
  obtain ⟨hstmts, horder⟩ := applyRespond_ok_fields hok
  have hlt : idx.toNat < s.statements.length := by omega
  obtain ⟨st0, hst0⟩ : ∃ st0, s.statements[idx.toNat]? = some st0 := by
    cases hc : s.statements[idx.toNat]? with
    | none => rw [List.getElem?_eq_none_iff] at hc; omega
    | some st0 => exact ⟨st0, rfl⟩
  have hunres0 : isStatementResolved st0 = false := by
    apply hguard
    rw [jsGet_nonneg h0]
    exact hst0
  have hne : ∀ j : Nat, j ≠ idx.toNat →
      updated.statements[j]? = s.statements[j]? := by
    intro j hj
    rw [hstmts]
    exact respondMap_getElem?_ne s u r idx.toNat j hj
  have htar : updated.statements[idx.toNat]? =
      some { st0 with responses := setResponse st0.responses u r } := by
    rw [hstmts, respondMap_getElem?_eq, hst0]
    rfl
  refine ⟨horder, ?_, ?_, ?_, ?_⟩
  · intro j hj
    unfold ratifiedAt
    rw [hne j hj]
  · unfold ratifiedAt
    rw [hst0]
    show statementRatified st0 = false
    unfold statementRatified
    rw [hunres0]
    rfl
  · intro st hmem
    obtain ⟨j, hj⟩ := mem_iff_exists_getElem?.mp hmem
    by_cases hji : j = idx.toNat
    · subst hji
      rw [htar] at hj
      injection hj with hj
      subst hj
      show (setResponse st0.responses u r).length ≤ st0.present.length
      have hc0 := hcount st0 (List.getElem?_mem hst0)
      by_cases hhas : hasResponseKey st0.responses u = true
      · rw [setResponse_length_of_has hhas]
        exact hc0
      · rw [setResponse_length_of_not_has (by simpa using hhas)]
        have hne0 : st0.responses.length ≠ st0.present.length := by
          intro heq
          rw [show isStatementResolved st0 = true by
            simp [isStatementResolved, heq]] at hunres0
          cases hunres0
        omega
    · rw [hne j hji] at hj
      exact hcount st (List.getElem?_mem hj)
  · intro st hmem
    obtain ⟨j, hj⟩ := mem_iff_exists_getElem?.mp hmem
    by_cases hji : j = idx.toNat
    · subst hji
      rw [htar] at hj
      injection hj with hj
      subst hj
      show st0.present.Nodup
      exact hpnd st0 (List.getElem?_mem hst0)
    · rw [hne j hji] at hj
      exact hpnd st (List.getElem?_mem hj)

/-- Combining the vote effect with the optional ratification sub-step keeps
the authority invariant, whichever way the target's status ended up. -/
theorem authInv_after_respond {s updated : Session} {idx : Int} {u : String}
    {r : Bool} (hinv : AuthInv s) (hok : applyRespond s idx u r = .ok updated)
    (hguard : ∀ st, jsGet s.statements idx = some st →
      isStatementResolved st = false) :
    (ratifiedAt updated.statements idx.toNat = true →
      ∀ oracle, AuthInv (handleStatementRatified updated idx.toNat oracle)) ∧
    (ratifiedAt updated.statements idx.toNat = false → AuthInv updated) := by
  obtain ⟨horder, hratne, hrattar, hcount, hpnd⟩ :=
    authInv_respond_facts hinv hok hguard
  obtain ⟨hexact, hnd, -, -⟩ := hinv
  have hnotin : idx.toNat ∉ updated.ratifiedOrder := by
    rw [horder]
    intro hmem
    rw [(hexact idx.toNat).mp hmem] at hrattar
    cases hrattar
  constructor
  · intro hrat oracle
    obtain ⟨st', hst'⟩ : ∃ st',
        updated.statements[idx.toNat]? = some st' := by
      unfold ratifiedAt at hrat
      cases hc : updated.statements[idx.toNat]? with
      | none => rw [hc] at hrat; cases hrat
      | some st' => exact ⟨st', rfl⟩
    refine ⟨?_, ?_, ?_, ?_⟩
    · intro j
      rw [handleStatementRatified_order_mem hst' j,
        handleStatementRatified_statements]
      by_cases hji : j = idx.toNat
      · subst hji
        simp [hrat, horder]
      · rw [horder]
        constructor
        · intro hc
          rcases hc with rfl | hc
          · exact absurd rfl hji
          · rw [hratne j hji]
            exact (hexact j).mp hc
        · intro hc
          right
          rw [hratne j hji] at hc
          exact (hexact j).mpr hc
    · exact handleStatementRatified_order_nodup (horder ▸ hnd) hnotin
    · rw [handleStatementRatified_statements]
      exact hcount
    · rw [handleStatementRatified_statements]
      exact hpnd
  · intro hrat
    refine ⟨?_, horder ▸ hnd, hcount, hpnd⟩
    intro j
    rw [horder]
    by_cases hji : j = idx.toNat
    · subst hji
      constructor
      · intro hmem
        rw [(hexact idx.toNat).mp hmem] at hrattar
        cases hrattar
      · intro hc
        rw [hc] at hrat
        cases hrat
    · rw [hratne j hji]
      exact hexact j

theorem handleVoteResponse_error {s : Session} {idx : Int} {u : String}
    {r : Bool} {e : String} {oracle : Except Unit (Option InsertPosition)}
    (h : applyRespond s idx u r = .error e) :
    handleVoteResponse s idx u r oracle = s := by
  unfold handleVoteResponse
  rw [h]

theorem handleVoteResponse_ok {s updated : Session} {idx : Int} {u : String}
    {r : Bool} {oracle : Except Unit (Option InsertPosition)}
    (h : applyRespond s idx u r = .ok updated) :
    handleVoteResponse s idx u r oracle =
      if ((match jsGet s.statements idx with
            | some st => isStatementResolved st
            | none => false) = false ∧
          (match jsGet updated.statements idx with
            | some st => isStatementResolved st
            | none => false) = true ∧
          (match jsGet updated.statements idx with
            | some st => everyResponseTrue st
            | none => false) = true)
      then handleStatementRatified updated idx.toNat oracle
      else updated := by
  unfold handleVoteResponse
  rw [h]

/-- An accepted vote on an unresolved statement preserves the authority
invariant (the handler inserts the index exactly when the vote ratifies the
statement). -/
theorem authInv_vote (s : Session) (hinv : AuthInv s) (idx : Int)
    (u : String) (r : Bool) (oracle : Except Unit (Option InsertPosition))
    (hguard : ∀ st, jsGet s.statements idx = some st →
      isStatementResolved st = false) :
    AuthInv (handleVoteResponse s idx u r oracle) := by
  cases hres : applyRespond s idx u r with
  | error e =>
    rw [handleVoteResponse_error hres]
    exact hinv
  | ok updated =>
    rw [handleVoteResponse_ok hres]
    obtain ⟨h0, h1⟩ := applyRespond_ok_range hres
    obtain ⟨st0, hst0⟩ : ∃ st0, s.statements[idx.toNat]? = some st0 := by
      cases hc : s.statements[idx.toNat]? with
      | none => rw [List.getElem?_eq_none_iff] at hc; omega
      | some st0 => exact ⟨st0, rfl⟩
    have hjs : jsGet s.statements idx = some st0 := by
      rw [jsGet_nonneg h0]
      exact hst0
    have hwas : (match jsGet s.statements idx with
        | some st => isStatementResolved st
        | none => false) = false := by
      rw [hjs]
      exact hguard st0 hjs
    obtain ⟨hstmts, -⟩ := applyRespond_ok_fields hres
    have htar : updated.statements[idx.toNat]? =
        some { st0 with responses := setResponse st0.responses u r } := by
      rw [hstmts, respondMap_getElem?_eq, hst0]
      rfl
    have hjs' : jsGet updated.statements idx =
        updated.statements[idx.toNat]? := jsGet_nonneg h0
    have hafter := authInv_after_respond hinv hres hguard
    split
    · next hc =>
      obtain ⟨-, h2, h3⟩ := hc
      rw [hjs', htar] at h2 h3
      have h2' : isStatementResolved
        { st0 with responses := setResponse st0.responses u r } = true := h2
      have h3' : everyResponseTrue
        { st0 with responses := setResponse st0.responses u r } = true := h3
      apply hafter.1 _ oracle
      unfold ratifiedAt
      rw [htar]
      show statementRatified
        { st0 with responses := setResponse st0.responses u r } = true
      unfold statementRatified
      rw [h2', h3']
      rfl
    · next hc =>
      apply hafter.2
      by_cases hrat : ratifiedAt updated.statements idx.toNat = true
      · exfalso
        apply hc
        have hratSt : statementRatified
            { st0 with responses := setResponse st0.responses u r } = true := by
          unfold ratifiedAt at hrat
          rw [htar] at hrat
          exact hrat
        unfold statementRatified at hratSt
        obtain ⟨ha, hb⟩ := Bool.and_eq_true_iff.mp hratSt
        refine ⟨hwas, ?_, ?_⟩
        · rw [hjs', htar]
          exact ha
        · rw [hjs', htar]
          exact hb
      · simpa using hrat

theorem ratifiedAt_append_unratified {stmts : List Statement}
    {new : Statement} (h : statementRatified new = false) (i : Nat) :
    ratifiedAt (stmts ++ [new]) i = ratifiedAt stmts i := by
  unfold ratifiedAt
  rcases lt_trichotomy i stmts.length with hlt | heq | hgt
  · rw [List.getElem?_append_left hlt]
  · subst heq
    rw [List.getElem?_concat_length, List.getElem?_eq_none (le_refl _)]
    exact h
  · rw [List.getElem?_eq_none (by simp; omega),
      List.getElem?_eq_none (by omega)]

theorem handleAddStatement_eq (s : Session) (text uid : String)
    (pu : List String) (neg : String) (nf : Bool)
    (oracle : Except Unit (Option InsertPosition)) :
    handleAddStatement s text uid pu neg nf oracle =
      match applyRespond (applyAddStatement s text neg nf uid pu)
          (((applyAddStatement s text neg nf uid pu).statements.length - 1 :
            Nat) : Int) uid true with
      | .error _ => s
      | .ok finalSession =>
        match finalSession.statements[(applyAddStatement s text neg nf uid pu).statements.length - 1]? with
        | none => finalSession
        | some statement =>
          if isStatementResolved statement = true ∧
              everyResponseTrue statement = true
          then handleStatementRatified finalSession
            ((applyAddStatement s text neg nf uid pu).statements.length - 1)
            oracle
          else finalSession := rfl

/-- `handleAddStatement` with a nonempty duplicate-free present snapshot
preserves the authority invariant: the new statement enters unratified, the
creator auto-vote may immediately ratify it, and in that case (and only then)
its index is spliced into `ratifiedOrder`. -/
theorem authInv_addStatement (s : Session) (hinv : AuthInv s)
    (text uid : String) (pu : List String) (neg : String) (nf : Bool)
    (oracle : Except Unit (Option InsertPosition))
    (hpu : pu ≠ []) (hpund : pu.Nodup) :
    AuthInv (handleAddStatement s text uid pu neg nf oracle) := by
  have hpulen : 0 < pu.length := List.length_pos.mpr hpu
  have hnewUnres : isStatementResolved { text := text, createdBy := uid, present := pu, responses := [] } = false := by
    unfold isStatementResolved
    exact decide_eq_false (by simp; omega)
  have hnewRat : statementRatified { text := text, createdBy := uid, present := pu, responses := [] } = false := by
    unfold statementRatified
    rw [hnewUnres]
    rfl
  have hs1stmts : (applyAddStatement s text neg nf uid pu).statements =
      s.statements ++ [{ text := text, createdBy := uid, present := pu, responses := [] }] := rfl
  have hs1order : (applyAddStatement s text neg nf uid pu).ratifiedOrder =
      s.ratifiedOrder := rfl
  have hinv1 : AuthInv (applyAddStatement s text neg nf uid pu) := by
    obtain ⟨hexact, hnd, hcount, hpnd⟩ := hinv
    refine ⟨?_, hs1order ▸ hnd, ?_, ?_⟩
    · intro i
      rw [hs1order, hs1stmts, ratifiedAt_append_unratified hnewRat i]
      exact hexact i
    · rw [hs1stmts]
      intro st hmem
      rcases List.mem_append.mp hmem with hm | hm
      · exact hcount st hm
      · rw [List.mem_singleton.mp hm]
        show ([] : List (String × Bool)).length ≤ pu.length
        simp only [List.length_nil]
        omega
    · rw [hs1stmts]
      intro st hmem
      rcases List.mem_append.mp hmem with hm | hm
      · exact hpnd st hm
      · rw [List.mem_singleton.mp hm]
        exact hpund
  have hlen : (applyAddStatement s text neg nf uid pu).statements.length =
      s.statements.length + 1 := by
    rw [hs1stmts]
    simp
  have hn1 : (applyAddStatement s text neg nf uid pu).statements.length - 1 =
      s.statements.length := by omega
  have htargets :
      (applyAddStatement s text neg nf uid pu).statements[(applyAddStatement s text neg nf uid pu).statements.length - 1]? =
      some { text := text, createdBy := uid, present := pu, responses := [] } := by
    rw [hn1, hs1stmts]
    exact List.getElem?_concat_length _ _
  obtain ⟨s2, hs2⟩ : ∃ s2, applyRespond (applyAddStatement s text neg nf uid pu)
      (((applyAddStatement s text neg nf uid pu).statements.length - 1 : Nat) : Int) uid true = .ok s2 := by
    unfold applyRespond
    rw [if_neg (by rw [hlen]; omega)]
    exact ⟨_, rfl⟩
  have htonat : ((((applyAddStatement s text neg nf uid pu).statements.length - 1 : Nat)) : Int).toNat =
      (applyAddStatement s text neg nf uid pu).statements.length - 1 :=
    Int.toNat_natCast _
  have hguard1 : ∀ st,
      jsGet (applyAddStatement s text neg nf uid pu).statements (((applyAddStatement s text neg nf uid pu).statements.length - 1 : Nat) : Int) = some st →
      isStatementResolved st = false := by
    intro st hst
    rw [jsGet_nonneg (by omega), htonat, htargets] at hst
    injection hst with hst
    subst hst
    exact hnewUnres
  have hafter := authInv_after_respond hinv1 hs2 hguard1
  rw [htonat] at hafter
  obtain ⟨hstmts2, -⟩ := applyRespond_ok_fields hs2
  have htar2 : s2.statements[(applyAddStatement s text neg nf uid pu).statements.length - 1]? =
      some { text := text, createdBy := uid, present := pu, responses := setResponse [] uid true } := by
    rw [hstmts2, htonat, respondMap_getElem?_eq, htargets]
    rfl
  rw [handleAddStatement_eq, hs2]
  show AuthInv (match s2.statements[(applyAddStatement s text neg nf uid pu).statements.length - 1]? with
    | none => s2
    | some statement =>
      if isStatementResolved statement = true ∧
          everyResponseTrue statement = true
      then handleStatementRatified s2
        ((applyAddStatement s text neg nf uid pu).statements.length - 1)
        oracle
      else s2)
  rw [htar2]
  show AuthInv (if isStatementResolved { text := text, createdBy := uid, present := pu, responses := setResponse [] uid true } = true ∧
      everyResponseTrue { text := text, createdBy := uid, present := pu, responses := setResponse [] uid true } = true
    then handleStatementRatified s2
      ((applyAddStatement s text neg nf uid pu).statements.length - 1) oracle
    else s2)
  split
  · next hc =>
    obtain ⟨h2, h3⟩ := hc
    apply hafter.1 _ oracle
    unfold ratifiedAt
    rw [htar2]
    show statementRatified { text := text, createdBy := uid, present := pu, responses := setResponse [] uid true } = true
    unfold statementRatified
    rw [h2, h3]
    rfl
  · next hc =>
    apply hafter.2
    by_cases hrat : ratifiedAt s2.statements
        ((applyAddStatement s text neg nf uid pu).statements.length - 1) = true
    · exfalso
      apply hc
      have hratSt : statementRatified { text := text, createdBy := uid, present := pu, responses := setResponse [] uid true } = true := by
        unfold ratifiedAt at hrat
        rw [htar2] at hrat
        exact hrat
      unfold statementRatified at hratSt
      exact Bool.and_eq_true_iff.mp hratSt
    · simpa using hrat

theorem mem_unresolvedIndices {s : Session} {i : Nat} :
    i ∈ unresolvedIndices s ↔
      ∃ st, s.statements[i]? = some st ∧ isStatementResolved st = false := by
  unfold unresolvedIndices
  rw [List.mem_filter, List.mem_range]
  constructor
  · intro ⟨hlt, hcond⟩
    cases hg : s.statements[i]? with
    | none =>
      rw [hg] at hcond
      cases hcond
    | some st =>
      rw [hg] at hcond
      exact ⟨st, rfl, by simpa using hcond⟩
  · intro ⟨st, hg, hunres⟩
    constructor
    · by_contra hge
      rw [List.getElem?_eq_none (by omega)] at hg
      cases hg
    · rw [hg]
      simpa using hunres

theorem unresolvedIndices_nodup (s : Session) :
    (unresolvedIndices s).Nodup :=
  List.Nodup.filter _ (List.nodup_range _)

theorem ratifyLoop_cons_none {c : Session} {j : Nat} {rest : List Nat}
    {oracles : Nat → Except Unit (Option InsertPosition)}
    (h : c.statements[j]? = none) :
    ratifyLoop c (j :: rest) oracles = ratifyLoop c rest oracles := by
  conv_lhs => unfold ratifyLoop
  rw [h]

theorem ratifyLoop_cons_some {c : Session} {j : Nat} {rest : List Nat}
    {oracles : Nat → Except Unit (Option InsertPosition)}
    {statement : Statement} (h : c.statements[j]? = some statement) :
    ratifyLoop c (j :: rest) oracles =
      ratifyLoop (if isStatementResolved statement = true ∧
          everyResponseTrue statement = true ∧
          c.ratifiedOrder.contains j = false
        then handleStatementRatified c j (oracles j)
        else c) rest oracles := by
  conv_lhs => unfold ratifyLoop
  rw [h]

/-- The ratification loop of `removeUserFromStatements`: starting from a state
whose order contains exactly the ratified indices that are not pending in the
remaining work list, the loop ends with the order containing exactly the
ratified indices. -/
theorem ratifyLoop_spec :
    ∀ (idxs : List Nat) (c : Session)
      (oracles : Nat → Except Unit (Option InsertPosition)),
      idxs.Nodup →
      c.ratifiedOrder.Nodup →
      (∀ i : Nat, i ∈ c.ratifiedOrder ↔
        (ratifiedAt c.statements i = true ∧ i ∉ idxs)) →
      (ratifyLoop c idxs oracles).statements = c.statements ∧
      (ratifyLoop c idxs oracles).ratifiedOrder.Nodup ∧
      (∀ i : Nat, i ∈ (ratifyLoop c idxs oracles).ratifiedOrder ↔
        ratifiedAt c.statements i = true) := by
  intro idxs
  induction idxs with
  | nil =>
    intro c oracles hnd hond hinv
    refine ⟨rfl, hond, ?_⟩
    intro i
    show i ∈ c.ratifiedOrder ↔ _
    rw [hinv i]
    simp
  | cons j rest ih =>
    intro c oracles hnd hond hinv
    obtain ⟨hjrest, hndrest⟩ := List.nodup_cons.mp hnd
    cases hg : c.statements[j]? with
    | none =>
      rw [ratifyLoop_cons_none hg]
      have hratj : ratifiedAt c.statements j = false := by
        unfold ratifiedAt
        rw [hg]
      refine ih c oracles hndrest hond ?_
      intro i
      rw [hinv i]
      by_cases hij : i = j
      · subst hij
        simp [hratj]
      · have hmc : (i ∉ j :: rest) ↔ (i ∉ rest) := by
          simp [List.mem_cons, hij]
        rw [hmc]
    | some statement =>
      rw [ratifyLoop_cons_some hg]
      by_cases hcond : isStatementResolved statement = true ∧
          everyResponseTrue statement = true ∧
          c.ratifiedOrder.contains j = false
      · rw [if_pos hcond]
        have hratj : ratifiedAt c.statements j = true := by
          unfold ratifiedAt
          rw [hg]
          show statementRatified statement = true
          unfold statementRatified
          rw [hcond.1, hcond.2.1]
          rfl
        have hnotin : j ∉ c.ratifiedOrder := by
          intro hmem
          exact ((hinv j).mp hmem).2 (List.mem_cons_self j rest)
        have hstc' : (handleStatementRatified c j
            (oracles j)).statements = c.statements :=
          handleStatementRatified_statements c j (oracles j)
        have hres := ih (handleStatementRatified c j (oracles j)) oracles
          hndrest
          (handleStatementRatified_order_nodup hond hnotin)
          ?_
        · refine ⟨hres.1.trans hstc', hres.2.1, ?_⟩
          intro i
          rw [hres.2.2 i, hstc']
        · intro i
          rw [handleStatementRatified_order_mem hg i, hstc']
          by_cases hij : i = j
          · subst hij
            simp [hratj, hjrest]
          · rw [hinv i]
            have hmc : (i ∉ j :: rest) ↔ (i ∉ rest) := by
              simp [List.mem_cons, hij]
            rw [hmc]
            simp [hij]
      · rw [if_neg hcond]
        refine ih c oracles hndrest hond ?_
        intro i
        by_cases hij : i = j
        · subst hij
          have hnotin : i ∉ c.ratifiedOrder := by
            intro hmem
            exact ((hinv i).mp hmem).2 (List.mem_cons_self i rest)
          constructor
          · intro hmem
            exact absurd hmem hnotin
          · rintro ⟨hrat, -⟩
            exfalso
            apply hcond
            have hratSt : statementRatified statement = true := by
              unfold ratifiedAt at hrat
              rw [hg] at hrat
              exact hrat
            unfold statementRatified at hratSt
            obtain ⟨ha, hb⟩ := Bool.and_eq_true_iff.mp hratSt
            refine ⟨ha, hb, ?_⟩
            rw [Bool.eq_false_iff]
            intro hcontains
            exact hnotin (List.elem_iff.mp hcontains)
        · rw [hinv i]
          have hmc : (i ∉ j :: rest) ↔ (i ∉ rest) := by
            simp [List.mem_cons, hij]
          rw [hmc]

/-- Presence-removal followed by the ratification loop preserves the
authority invariant: every statement that the removal newly resolved with
unanimous agreement is spliced in, everything else is untouched. -/
theorem authInv_removeUser (s : Session) (hinv : AuthInv s) (u : String)
    (oracles : Nat → Except Unit (Option InsertPosition)) :
    AuthInv (removeUserFromStatements s u oracles) := by
  obtain ⟨hexact, hnd, hcount, hpnd⟩ := hinv
  have hustmts : (applyUpdateUnresolved s u .remove).statements =
      s.statements.map (presenceTransform u .remove) := rfl
  have huorder : (applyUpdateUnresolved s u .remove).ratifiedOrder =
      s.ratifiedOrder := rfl
  have hinit : ∀ i : Nat,
      i ∈ (applyUpdateUnresolved s u .remove).ratifiedOrder ↔
      (ratifiedAt (applyUpdateUnresolved s u .remove).statements i = true ∧
        i ∉ unresolvedIndices s) := by
    intro i
    rw [huorder, hexact i]
    constructor
    · intro hrat
      have hsome : ∃ st, s.statements[i]? = some st ∧
          isStatementResolved st = true ∧ statementRatified st = true := by
        unfold ratifiedAt at hrat
        cases hg : s.statements[i]? with
        | none => rw [hg] at hrat; cases hrat
        | some st =>
          rw [hg] at hrat
          have hr : statementRatified st = true := hrat
          unfold statementRatified at hr
          exact ⟨st, rfl, (Bool.and_eq_true_iff.mp hr).1, hrat⟩
      obtain ⟨st, hg, hres, hrs⟩ := hsome
      constructor
      · unfold ratifiedAt
        rw [hustmts, List.getElem?_map, hg]
        show statementRatified (presenceTransform u .remove st) = true
        rw [presenceTransform_resolved hres]
        exact hrs
      · intro hmem
        obtain ⟨st', hg', hunres'⟩ := mem_unresolvedIndices.mp hmem
        rw [hg] at hg'
        injection hg' with hg'
        subst hg'
        rw [hres] at hunres'
        cases hunres'
    · intro ⟨hrat, hnotun⟩
      unfold ratifiedAt at hrat
      rw [hustmts, List.getElem?_map] at hrat
      cases hg : s.statements[i]? with
      | none => rw [hg] at hrat; cases hrat
      | some st =>
        rw [hg] at hrat
        have hres : isStatementResolved st = true := by
          by_contra hunres
          exact hnotun (mem_unresolvedIndices.mpr
            ⟨st, hg, by simpa using hunres⟩)
        have hrs : statementRatified (presenceTransform u .remove st) =
            true := hrat
        rw [presenceTransform_resolved hres] at hrs
        unfold ratifiedAt
        rw [hg]
        exact hrs
  obtain ⟨hlstmts, hlnd, hlexact⟩ :=
    ratifyLoop_spec (unresolvedIndices s) (applyUpdateUnresolved s u .remove)
      oracles (unresolvedIndices_nodup s) (huorder ▸ hnd) hinit
  have hcount' : ∀ st ∈ (applyUpdateUnresolved s u .remove).statements,
      st.responses.length ≤ st.present.length := by
    rw [hustmts]
    intro st hmem
    obtain ⟨st0, h0, rfl⟩ := List.mem_map.mp hmem
    exact (presenceTransform_remove_status u st0 (hcount st0 h0)
      (hpnd st0 h0)).1
  have hpnd' : ∀ st ∈ (applyUpdateUnresolved s u .remove).statements,
      st.present.Nodup := by
    rw [hustmts]
    intro st hmem
    obtain ⟨st0, h0, rfl⟩ := List.mem_map.mp hmem
    exact (presenceTransform_remove_status u st0 (hcount st0 h0)
      (hpnd st0 h0)).2
  refine ⟨?_, hlnd, ?_, ?_⟩
  · intro i
    show i ∈ (ratifyLoop (applyUpdateUnresolved s u .remove)
      (unresolvedIndices s) oracles).ratifiedOrder ↔ _
    rw [hlexact i]
    show _ ↔ ratifiedAt (ratifyLoop (applyUpdateUnresolved s u .remove)
      (unresolvedIndices s) oracles).statements i = true
    rw [hlstmts]
  · show ∀ st ∈ (ratifyLoop (applyUpdateUnresolved s u .remove)
      (unresolvedIndices s) oracles).statements, _
    rw [hlstmts]
    exact hcount'
  · show ∀ st ∈ (ratifyLoop (applyUpdateUnresolved s u .remove)
      (unresolvedIndices s) oracles).statements, _
    rw [hlstmts]
    exact hpnd'

/-- Transitions of the room authority (`src/party/index.ts`): connect
presence-add, add-statement, vote, and grace-expiry removal; the external
service results are arbitrary oracle arguments (claim C2's notion of an
accepted authority transition). -/
inductive AuthReachable : Session → Prop where
  | init : AuthReachable initializeSession
  | connect {s : Session} (userId : String) : AuthReachable s →
      AuthReachable (connectPresenceAdd s userId)
  | addStatement {s : Session} (text userId : String)
      (presentUsers : List String) (negation : String) (negationFirst : Bool)
      (oracle : Except Unit (Option InsertPosition)) : AuthReachable s →
      AuthReachable (handleAddStatement s text userId presentUsers negation
        negationFirst oracle)
  | vote {s : Session} (statementIndex : Int) (userId : String)
      (response : Bool) (oracle : Except Unit (Option InsertPosition)) :
      AuthReachable s →
      AuthReachable (handleVoteResponse s statementIndex userId response
        oracle)
  | removeUser {s : Session} (userId : String)
      (oracles : Nat → Except Unit (Option InsertPosition)) :
      AuthReachable s →
      AuthReachable (removeUserFromStatements s userId oracles)

/-- Authority transitions restricted to runs in which every vote targets a
statement that is unresolved at that moment, and every add-statement snapshot
of present users is nonempty and duplicate-free (the sender is connected and
connection ids are unique per room). -/
inductive GuardedAuthReachable : Session → Prop where
  | init : GuardedAuthReachable initializeSession
  | connect {s : Session} (userId : String) : GuardedAuthReachable s →
      GuardedAuthReachable (connectPresenceAdd s userId)
  | addStatement {s : Session} (text userId : String)
      (presentUsers : List String) (negation : String) (negationFirst : Bool)
      (oracle : Except Unit (Option InsertPosition)) :
      GuardedAuthReachable s →
      presentUsers ≠ [] → presentUsers.Nodup →
      GuardedAuthReachable (handleAddStatement s text userId presentUsers
        negation negationFirst oracle)
  | vote {s : Session} (statementIndex : Int) (userId : String)
      (response : Bool) (oracle : Except Unit (Option InsertPosition)) :
      GuardedAuthReachable s →
      (∀ st, jsGet s.statements statementIndex = some st →
        isStatementResolved st = false) →
      GuardedAuthReachable (handleVoteResponse s statementIndex userId
        response oracle)
  | removeUser {s : Session} (userId : String)
      (oracles : Nat → Except Unit (Option InsertPosition)) :
      GuardedAuthReachable s →
      GuardedAuthReachable (removeUserFromStatements s userId oracles)

theorem authInv_init : AuthInv initializeSession := by
  refine ⟨?_, List.nodup_nil, ?_, ?_⟩
  · intro i
    constructor
    · intro h
      cases h
    · intro h
      unfold ratifiedAt at h
      rw [show (initializeSession.statements)[i]? = none from rfl] at h
      cases h
  · intro st h
    cases h
  · intro st h
    cases h

theorem authInv_of_guardedAuthReachable {s : Session}
    (h : GuardedAuthReachable s) : AuthInv s := by
  induction h with
  | init => exact authInv_init
  | connect userId h ih => exact authInv_connect _ ih userId
  | addStatement text userId pu neg nf oracle h hne hnd ih =>
    exact authInv_addStatement _ ih text userId pu neg nf oracle hne hnd
  | vote idx userId r oracle h hguard ih =>
    exact authInv_vote _ ih idx userId r oracle hguard
  | removeUser userId oracles h ih =>
    exact authInv_removeUser _ ih userId oracles

/-- The authority state after: "u1" (alone) adds a statement, which the
creator auto-vote immediately ratifies (`ratifiedOrder = [0]`); then outsider
"u2" votes on the already resolved statement, making `|responses| = 2` exceed
`|present| = 1`, so statement 0 is no longer ratified — but its index stays
in `ratifiedOrder`. -/
def c2CexSession : Session :=
  handleVoteResponse
    (handleAddStatement initializeSession "We should go to the moon!" "u1"
      ["u1"] "Not: We should go to the moon!" false (.ok none))
    0 "u2" true (.ok none)

/-- C2, counterexample: after a sequence of accepted authority transitions,
`ratifiedOrder` contains index 0 although statement 0 is not ratified. -/
theorem c2_counterexample :
    AuthReachable c2CexSession ∧
    0 ∈ c2CexSession.ratifiedOrder ∧
    ratifiedAt c2CexSession.statements 0 = false := by
  refine ⟨?_, by decide, by decide⟩
  exact AuthReachable.vote 0 "u2" true (.ok none)
    (AuthReachable.addStatement "We should go to the moon!" "u1" ["u1"]
      "Not: We should go to the moon!" false (.ok none) AuthReachable.init)

/-- C2 (amended): after every accepted transition of the room authority in
runs where every vote targets a statement unresolved at that moment and every
add-statement present snapshot is nonempty and duplicate-free,
`ratifiedOrder` contains exactly the set of ratified statement indices
(resolved with every response `true`), each at most once. -/
theorem c2_ratifiedOrder_exact (s : Session) (h : GuardedAuthReachable s) :
    (∀ i : Nat, i ∈ s.ratifiedOrder ↔ ratifiedAt s.statements i = true) ∧
    s.ratifiedOrder.Nodup :=
  ⟨(authInv_of_guardedAuthReachable h).1,
    (authInv_of_guardedAuthReachable h).2.1⟩

def c2WitnessSession : Session :=
  handleAddStatement initializeSession "t" "u1" ["u1", "u2"] "n" false
    (.ok none)

theorem c2_ratifiedOrder_exact_witness :
    GuardedAuthReachable c2WitnessSession ∧
    ((∀ i : Nat, i ∈ c2WitnessSession.ratifiedOrder ↔
      ratifiedAt c2WitnessSession.statements i = true) ∧
    c2WitnessSession.ratifiedOrder.Nodup) := by
  have hreach : GuardedAuthReachable c2WitnessSession :=
    GuardedAuthReachable.addStatement "t" "u1" ["u1", "u2"] "n" false
      (.ok none) GuardedAuthReachable.init (by decide) (by decide)
  exact ⟨hreach, c2_ratifiedOrder_exact c2WitnessSession hreach⟩

end Resonance